import Mathlib

/-!
Verification development for the diagram-to-graph compiler and layout engine
of the ML_mumbai repository.

The subject code is the pair of `parseMermaidToFlow` functions (workflow page
and explainer page) together with `applyHierarchicalLayout` and the
`NODE_COLORS` palette.  The JavaScript is embedded shallowly:

* strings are `List Char` (converted from `String` at the boundary);
* the JS regular expressions used by the parser are embedded by a small
  backtracking matcher (`matchItems`) over an `Item` list; every pattern in
  the source is a plain concatenation of literals, single character classes
  and greedy `+`/`*` over character classes, which `Item` captures exactly,
  with the same leftmost, greedy, backtracking semantics as JS regexes;
* JS `Map` objects are embedded as insertion-ordered association lists
  (`Map.set` overwrites in place, `Map.has`/`Map.get` look up the key);
* the `while` loop of the BFS is embedded with explicit fuel
  `edges.length + 1`, which is an upper bound on the number of loop
  iterations (every queue entry after the initial one is pushed in the
  iteration that first visits its edge's source, so each edge is pushed at
  most once and at most `edges.length + 1` entries are ever popped);
* the unguarded `roots[0].id` access in `applyHierarchicalLayout` (which
  throws a `TypeError` in JS when `roots` is empty) makes the workflow
  pipeline `Option`-valued: `none` models the thrown exception.
-/

/-- JS `\s` / `String.prototype.trim` whitespace set (ECMA-262 WhiteSpace
and LineTerminator code points). -/
def jsWs (c : Char) : Bool :=
  c.toNat = 9 || c.toNat = 10 || c.toNat = 11 || c.toNat = 12 || c.toNat = 13 ||
  c.toNat = 32 || c.toNat = 160 || c.toNat = 0x1680 ||
  (0x2000 ≤ c.toNat && c.toNat ≤ 0x200A) ||
  c.toNat = 0x2028 || c.toNat = 0x2029 || c.toNat = 0x202F ||
  c.toNat = 0x205F || c.toNat = 0x3000 || c.toNat = 0xFEFF

/-- The regex class `[A-Z]`. -/
def isUpperAZ (c : Char) : Bool := 'A' ≤ c && c ≤ 'Z'

/-- The regex class `[\[{]` (opening brackets). -/
def isOpenBr (c : Char) : Bool := c = '[' || c = '\x7b'

/-- The regex class `[\]}]` (closing brackets). -/
def isCloseBr (c : Char) : Bool := c = ']' || c = '\x7d'

/-- The regex class `[^\]{}]`. -/
def notBr (c : Char) : Bool := !(c = ']' || c = '\x7b' || c = '\x7d')

/-- The regex class `[^}]`. -/
def notRBrace (c : Char) : Bool := !(c = '\x7d')

/-- The regex class `[^\]]`. -/
def notRBracket (c : Char) : Bool := !(c = ']')

/-- The regex class `[^\|]`. -/
def notPipe (c : Char) : Bool := !(c = '|')

/-- JS `String.prototype.trim`. -/
def jsTrim (cs : List Char) : List Char :=
  ((cs.dropWhile jsWs).reverse.dropWhile jsWs).reverse

/-- JS `String.prototype.split('\n')`. -/
def splitNl : List Char → List (List Char)
  | [] => [[]]
  | c :: t =>
    if c = '\n' then [] :: splitNl t
    else match splitNl t with
      | [] => [[c]]
      | l :: ls => (c :: l) :: ls

/-! ### A tiny backtracking regex engine

Every regex in the source is a concatenation of the following atoms, so an
`Item` list is an exact embedding of each pattern. -/

/-- One atom of a source regex: a literal, a single-character class, or a
greedy `+`/`*` over a character class (`min1` = `+`), optionally capturing. -/
inductive Item where
  | lit : List Char → Item
  | one : (Char → Bool) → Item
  | rep : (Char → Bool) → Bool → Bool → Item

/-- Backtracking matcher anchored at the start of `s`: returns the capture
list and the remainder after the match, trying greedy quantifiers longest
first exactly as a JS regex engine does. -/
def matchItems : List Item → List Char → Option (List (List Char) × List Char)
  | [], s => some ([], s)
  | Item.lit l :: rest, s =>
    if l.isPrefixOf s then matchItems rest (s.drop l.length) else none
  | Item.one p :: rest, s =>
    match s with
    | [] => none
    | c :: t => if p c then matchItems rest t else none
  | Item.rep p min1 cap :: rest, s =>
    let n := (s.takeWhile p).length
    let ks := if min1 then (List.range n).reverse.map (· + 1)
              else (List.range (n + 1)).reverse
    ks.findSome? (fun k =>
      (matchItems rest (s.drop k)).map (fun r =>
        (if cap then s.take k :: r.1 else r.1, r.2)))

/-- JS `String.prototype.match` (non-global): leftmost match. -/
def findMatch (its : List Item) : List Char → Option (List (List Char) × List Char)
  | [] => matchItems its []
  | c :: t =>
    match matchItems its (c :: t) with
    | some r => some r
    | none => findMatch its t

/-- One step of JS `String.prototype.matchAll` with fuel; each search
resumes at the previous match's end (`lastIndex`).  The patterns used in the
source never match the empty string, so the `r.2.length < s.length` guard
never fires; it only serves termination. -/
def matchAllFuel (its : List Item) : Nat → List Char → List (List (List Char))
  | 0, _ => []
  | fuel + 1, s =>
    match findMatch its s with
    | none => []
    | some r =>
      r.1 :: (if r.2.length < s.length then matchAllFuel its fuel r.2 else [])

/-- JS `String.prototype.matchAll`. -/
def matchAll (its : List Item) (s : List Char) : List (List (List Char)) :=
  matchAllFuel its (s.length + 1) s

/-! ### The six regexes of `parseMermaidToFlow` -/

/-- `/([A-Z]+)\{\{([^}]+)\}\}/g` — diamond node declarations. -/
def diamondPat : List Item :=
  [Item.rep isUpperAZ true true, Item.lit ['\x7b', '\x7b'],
   Item.rep notRBrace true true, Item.lit ['\x7d', '\x7d']]

/-- `/([A-Z]+)\[([^\]]+)\]/g` — square node declarations. -/
def squarePat : List Item :=
  [Item.rep isUpperAZ true true, Item.lit ['['],
   Item.rep notRBracket true true, Item.lit [']']]

/-- `/([A-Z]+)[\[{]+[^\]{}]+[\]}]+\s*-->\s*\|([^\|]+)\|\s*([A-Z]+)[\[{]+/` —
edge pattern 1 (labeled, fully bracketed). -/
def edgePat1 : List Item :=
  [Item.rep isUpperAZ true true, Item.rep isOpenBr true false,
   Item.rep notBr true false, Item.rep isCloseBr true false,
   Item.rep jsWs false false, Item.lit ['-', '-', '>'],
   Item.rep jsWs false false, Item.lit ['|'],
   Item.rep notPipe true true, Item.lit ['|'],
   Item.rep jsWs false false, Item.rep isUpperAZ true true,
   Item.rep isOpenBr true false]

/-- `/([A-Z]+)[\[{]+[^\]{}]+[\]}]+\s*-->\s*([A-Z]+)[\[{]+/` —
edge pattern 2 (unlabeled, fully bracketed). -/
def edgePat2 : List Item :=
  [Item.rep isUpperAZ true true, Item.rep isOpenBr true false,
   Item.rep notBr true false, Item.rep isCloseBr true false,
   Item.rep jsWs false false, Item.lit ['-', '-', '>'],
   Item.rep jsWs false false, Item.rep isUpperAZ true true,
   Item.rep isOpenBr true false]

/-- `/([A-Z]+)\s+-->\s+([A-Z]+)[\[{]/` — edge pattern 3 (bare source,
bracketed target). -/
def edgePat3 : List Item :=
  [Item.rep isUpperAZ true true, Item.rep jsWs true false,
   Item.lit ['-', '-', '>'], Item.rep jsWs true false,
   Item.rep isUpperAZ true true, Item.one isOpenBr]

/-- `/([A-Z]+)\s*-->\s*([A-Z]+)/` — edge pattern 4 (fully bare). -/
def edgePat4 : List Item :=
  [Item.rep isUpperAZ true true, Item.rep jsWs false false,
   Item.lit ['-', '-', '>'], Item.rep jsWs false false,
   Item.rep isUpperAZ true true]

/-! ### Data model -/

/-- One entry of the `NODE_COLORS` palette. -/
structure ColorTriple where
  bg : String
  border : String
  text : String
deriving DecidableEq, Repr

/-- The `NODE_COLORS` palette (identical in both pages). -/
def NODE_COLORS : List ColorTriple :=
  [⟨"#fef08a", "#facc15", "#713f12"⟩,
   ⟨"#86efac", "#4ade80", "#14532d"⟩,
   ⟨"#93c5fd", "#3b82f6", "#1e3a8a"⟩,
   ⟨"#fda4af", "#f43f5e", "#881337"⟩,
   ⟨"#c4b5fd", "#8b5cf6", "#4c1d95"⟩,
   ⟨"#fed7aa", "#fb923c", "#7c2d12"⟩,
   ⟨"#a5f3fc", "#06b6d4", "#164e63"⟩,
   ⟨"#fbbf24", "#f59e0b", "#78350f"⟩]

/-- Value stored in the `nodeMap`: `{ label, isDiamond }`. -/
structure NodeData where
  label : String
  isDiamond : Bool
deriving DecidableEq, Repr

/-- One entry of `edgeList`: `{ source, target, label? }`. -/
structure EdgeDecl where
  source : String
  target : String
  label : Option String
deriving DecidableEq, Repr

/-- The fields of a React Flow node that the core logic reads or writes
(identifier, label text, diamond flag from the style, the assigned palette
entry, and the position). -/
structure FlowNode where
  id : String
  label : String
  isDiamond : Bool
  color : ColorTriple
  position : Int × Int
deriving DecidableEq, Repr

/-- The fields of a React Flow edge the core logic reads or writes. -/
structure FlowEdge where
  id : String
  source : String
  target : String
  label : Option String
deriving DecidableEq, Repr

/-- JS `Map.prototype.has` on an insertion-ordered association list. -/
def mapHas [DecidableEq κ] (m : List (κ × α)) (k : κ) : Bool :=
  m.any (fun p => p.1 = k)

/-- JS `Map.prototype.get` on an insertion-ordered association list. -/
def mapGet [DecidableEq κ] (k : κ) : List (κ × α) → Option α
  | [] => none
  | p :: t => if p.1 = k then some p.2 else mapGet k t

/-- JS `Map.prototype.set`: overwrite in place if present, else append. -/
def mapSet [DecidableEq κ] (m : List (κ × α)) (k : κ) (v : α) : List (κ × α) :=
  if mapHas m k then m.map (fun p => if p.1 = k then (k, v) else p)
  else m ++ [(k, v)]

/-- Accumulated parser state: `nodeMap`, `nodeOrder` and `edgeList`. -/
structure ParseState where
  nodeMap : List (String × NodeData)
  nodeOrder : List String
  edgeList : List EdgeDecl
deriving DecidableEq, Repr

namespace Workflow

/-- Processing of one node-declaration regex match: honour
`if (!nodeMap.has(id))` and record label (trimmed) and shape of the first
sighting. -/
def addNodeDecl (isDiamond : Bool) (st : ParseState) (m : List (List Char)) :
    ParseState :=
  let id := String.mk (m.getD 0 [])
  let label := String.mk (jsTrim (m.getD 1 []))
  if mapHas st.nodeMap id then st
  else { st with
         nodeMap := st.nodeMap ++ [(id, ⟨label, isDiamond⟩)],
         nodeOrder := st.nodeOrder ++ [id] }

/-- The per-line connection parsing: the four patterns tried in order, the
first match winning (the early `return`s of the source). -/
def extractEdge (t : List Char) : Option EdgeDecl :=
  match findMatch edgePat1 t with
  | some r =>
    some ⟨String.mk (jsTrim (r.1.getD 0 [])), String.mk (jsTrim (r.1.getD 2 [])),
          some (String.mk (jsTrim (r.1.getD 1 [])))⟩
  | none =>
  match findMatch edgePat2 t with
  | some r =>
    some ⟨String.mk (jsTrim (r.1.getD 0 [])), String.mk (jsTrim (r.1.getD 1 [])), none⟩
  | none =>
  match findMatch edgePat3 t with
  | some r =>
    some ⟨String.mk (jsTrim (r.1.getD 0 [])), String.mk (jsTrim (r.1.getD 1 [])), none⟩
  | none =>
  match findMatch edgePat4 t with
  | some r =>
    some ⟨String.mk (jsTrim (r.1.getD 0 [])), String.mk (jsTrim (r.1.getD 1 [])), none⟩
  | none => none

/-- The body of `lines.forEach`: extract all diamond declarations, then all
square declarations, then at most one edge. -/
def processLine (st : ParseState) (line : List Char) : ParseState :=
  let t := jsTrim line
  let st1 := (matchAll diamondPat t).foldl (addNodeDecl true) st
  let st2 := (matchAll squarePat t).foldl (addNodeDecl false) st1
  match extractEdge t with
  | some e => { st2 with edgeList := st2.edgeList ++ [e] }
  | none => st2

/-- `mermaidCode.split('\n').filter(line => line.trim() &&
!line.trim().startsWith('flowchart'))`. -/
def parseLines (code : List Char) : List (List Char) :=
  (splitNl code).filter
    (fun l => !(jsTrim l).isEmpty && !("flowchart".data.isPrefixOf (jsTrim l)))

/-- The whole node/edge scanning pass. -/
def parseState (code : List Char) : ParseState :=
  (parseLines code).foldl processLine ⟨[], [], []⟩

/-- The fallback loop body: `edgeList.push({source: nodeOrder[i], target:
nodeOrder[i+1]})` for `i = 0 .. length-2`. -/
def chainEdges (order : List String) : List EdgeDecl :=
  (List.range (order.length - 1)).map
    (fun i => ⟨order.getD i "", order.getD (i + 1) "", none⟩)

/-- `edgeList` after the no-edges fallback. -/
def finalEdges (st : ParseState) : List EdgeDecl :=
  if st.edgeList.isEmpty && decide (st.nodeOrder.length > 1) then
    chainEdges st.nodeOrder
  else st.edgeList

/-- `nodeMap.forEach` with the mutable `colorIndex`: build the React Flow
nodes at position (0,0), assigning `NODE_COLORS[colorIndex %
NODE_COLORS.length]`. -/
def flowNodesAux : List (String × NodeData) → Nat → List FlowNode
  | [], _ => []
  | (id, d) :: t, ci =>
    { id := id, label := d.label, isDiamond := d.isDiamond,
      color := (NODE_COLORS.get? (ci % NODE_COLORS.length)).getD ⟨"", "", ""⟩,
      position := (0, 0) } :: flowNodesAux t (ci + 1)

/-- `const flowNodes = ...` of the workflow page. -/
def flowNodes (st : ParseState) : List FlowNode := flowNodesAux st.nodeMap 0

/-- `edgeList.map((edge, idx) => ({id: `e${idx}`, ...}))`. -/
def flowEdges (es : List EdgeDecl) : List FlowEdge :=
  es.enum.map (fun p => ⟨"e" ++ toString p.1, p.2.source, p.2.target, p.2.label⟩)

/-- The BFS `while (queue.length > 0)` loop.  `fuel = edges.length + 1`
bounds the iteration count: every entry after the initial one is enqueued in
the single iteration that first visits its edge's source, so each edge is
enqueued at most once and the loop pops at most `edges.length + 1` entries
before the queue empties. -/
def bfsRun (edges : List FlowEdge) :
    Nat → List (String × Nat) → List String → List (String × Nat) →
    List (String × Nat)
  | 0, _, _, levels => levels
  | _ + 1, [], _, levels => levels
  | fuel + 1, (id, lvl) :: rest, visited, levels =>
    if id ∈ visited then bfsRun edges fuel rest visited levels
    else
      let visited' := visited ++ [id]
      let children :=
        (edges.filter (fun e => e.source = id && !(visited'.contains e.target))).map
          (fun e => (e.target, lvl + 1))
      bfsRun edges fuel (rest ++ children) visited' (levels ++ [(id, lvl)])

/-- `incomingCount` after both `forEach` passes. -/
def incomingCount (nodes : List FlowNode) (edges : List FlowEdge) :
    List (String × Nat) :=
  edges.foldl
    (fun m e => mapSet m e.target ((mapGet e.target m).getD 0 + 1))
    (nodes.foldl (fun m n => mapSet m n.id 0) [])

/-- The root candidates: in-degree-0 nodes sorted by id
(`a.id.localeCompare(b.id)`; all ids produced by the parser are uppercase
ASCII runs, on which `localeCompare` agrees with code-point order). -/
def sortedRoots (nodes : List FlowNode) (edges : List FlowEdge) : List FlowNode :=
  List.insertionSort (fun a b => a.id ≤ b.id)
    (nodes.filter (fun n => mapGet n.id (incomingCount nodes edges) = some 0))

/-- `roots` after the empty-roots fallback
(`roots = [sortedNodes[0]]`). -/
def rootsAfterFallback (nodes : List FlowNode) (edges : List FlowEdge) :
    List FlowNode :=
  let roots := sortedRoots nodes edges
  if roots.isEmpty && !nodes.isEmpty then
    match List.insertionSort (fun a b => a.id ≤ b.id) nodes with
    | [] => []
    | n :: _ => [n]
  else roots

/-- `levels` after the BFS and the disconnected-node default pass. -/
def levelsWithDefaults (nodes : List FlowNode) (edges : List FlowEdge)
    (root : FlowNode) : List (String × Nat) :=
  let levels := bfsRun edges (edges.length + 1) [(root.id, 0)] [] []
  nodes.foldl (fun lv n => if mapHas lv n.id then lv else lv ++ [(n.id, 0)]) levels

/-- `levelGroups` built by the `levels.forEach` pass, each group then
sorted by `.sort()`. -/
def levelGroups (levels : List (String × Nat)) : List (Nat × List String) :=
  (levels.foldl
    (fun gs p =>
      if mapHas gs p.2 then
        gs.map (fun g => if g.1 = p.2 then (g.1, g.2 ++ [p.1]) else g)
      else gs ++ [(p.2, [p.1])])
    []).map (fun g => (g.1, List.insertionSort (fun a b => a ≤ b) g.2))

/-- The final coordinate computation for one node. -/
def positionNode (levels : List (String × Nat)) (groups : List (Nat × List String))
    (n : FlowNode) : FlowNode :=
  let level := (mapGet n.id levels).getD 0
  let nodesInLevel := (mapGet level groups).getD []
  let indexInLevel : Int :=
    match nodesInLevel.findIdx? (fun x => x = n.id) with
    | some i => (i : Int)
    | none => -1
  let totalWidth : Int := ((nodesInLevel.length : Int) - 1) * 300
  let startX : Int := 600 - totalWidth / 2
  { n with position := (startX + indexInLevel * 300, 80 + (level : Int) * 200) }

/-- `applyHierarchicalLayout`.  When `roots` is empty (which happens exactly
when the node list is empty) the source evaluates `roots[0].id` on
`undefined` and throws a `TypeError`; that is modelled by `none`. -/
def applyHierarchicalLayout (nodes : List FlowNode) (edges : List FlowEdge) :
    Option (List FlowNode) :=
  match rootsAfterFallback nodes edges with
  | [] => none
  | root :: _ =>
    let levels := levelsWithDefaults nodes edges root
    let groups := levelGroups levels
    some (nodes.map (positionNode levels groups))

/-- `parseMermaidToFlow` of the workflow page (`src/unnamed/part_002`):
parse, fallback, conversion, hierarchical layout. -/
def parseMermaidToFlow (code : String) : Option (List FlowNode × List FlowEdge) :=
  let st := parseState code.data
  let es := finalEdges st
  let fns := flowNodes st
  let fes := flowEdges es
  (applyHierarchicalLayout fns fes).map (fun ns => (ns, fes))

end Workflow

namespace Explainer

/-- Node-declaration processing of the explainer page
(`src/frontend/app/dashboard/explainer/page.tsx`), textually identical to
the workflow page's. -/
def addNodeDecl (isDiamond : Bool) (st : ParseState) (m : List (List Char)) :
    ParseState :=
  let id := String.mk (m.getD 0 [])
  let label := String.mk (jsTrim (m.getD 1 []))
  if mapHas st.nodeMap id then st
  else { st with
         nodeMap := st.nodeMap ++ [(id, ⟨label, isDiamond⟩)],
         nodeOrder := st.nodeOrder ++ [id] }

/-- Connection parsing of the explainer page: the same four patterns in the
same order with the same early returns. -/
def extractEdge (t : List Char) : Option EdgeDecl :=
  match findMatch edgePat1 t with
  | some r =>
    some ⟨String.mk (jsTrim (r.1.getD 0 [])), String.mk (jsTrim (r.1.getD 2 [])),
          some (String.mk (jsTrim (r.1.getD 1 [])))⟩
  | none =>
  match findMatch edgePat2 t with
  | some r =>
    some ⟨String.mk (jsTrim (r.1.getD 0 [])), String.mk (jsTrim (r.1.getD 1 [])), none⟩
  | none =>
  match findMatch edgePat3 t with
  | some r =>
    some ⟨String.mk (jsTrim (r.1.getD 0 [])), String.mk (jsTrim (r.1.getD 1 [])), none⟩
  | none =>
  match findMatch edgePat4 t with
  | some r =>
    some ⟨String.mk (jsTrim (r.1.getD 0 [])), String.mk (jsTrim (r.1.getD 1 [])), none⟩
  | none => none

/-- `lines.forEach` body of the explainer page. -/
def processLine (st : ParseState) (line : List Char) : ParseState :=
  let t := jsTrim line
  let st1 := (matchAll diamondPat t).foldl (addNodeDecl true) st
  let st2 := (matchAll squarePat t).foldl (addNodeDecl false) st1
  match extractEdge t with
  | some e => { st2 with edgeList := st2.edgeList ++ [e] }
  | none => st2

/-- Line splitting and filtering of the explainer page. -/
def parseLines (code : List Char) : List (List Char) :=
  (splitNl code).filter
    (fun l => !(jsTrim l).isEmpty && !("flowchart".data.isPrefixOf (jsTrim l)))

/-- The explainer page's node/edge scanning pass. -/
def parseState (code : List Char) : ParseState :=
  (parseLines code).foldl processLine ⟨[], [], []⟩

/-- The explainer page's fallback loop. -/
def chainEdges (order : List String) : List EdgeDecl :=
  (List.range (order.length - 1)).map
    (fun i => ⟨order.getD i "", order.getD (i + 1) "", none⟩)

/-- The explainer page's `edgeList` after the fallback. -/
def finalEdges (st : ParseState) : List EdgeDecl :=
  if st.edgeList.isEmpty && decide (st.nodeOrder.length > 1) then
    chainEdges st.nodeOrder
  else st.edgeList

/-- `nodeMap.forEach` of the explainer page: colors cycle as in the
workflow page, but positions are a fixed vertical stack — diamonds at
`x = 250` advancing `y` by 200, rectangles at `x = 200` advancing `y` by
150; no hierarchical layout is applied. -/
def flowNodesAux : List (String × NodeData) → Nat → Int → List FlowNode
  | [], _, _ => []
  | (id, d) :: t, ci, y =>
    let color := (NODE_COLORS.get? (ci % NODE_COLORS.length)).getD ⟨"", "", ""⟩
    if d.isDiamond then
      { id := id, label := d.label, isDiamond := d.isDiamond, color := color,
        position := (250, y) } :: flowNodesAux t (ci + 1) (y + 200)
    else
      { id := id, label := d.label, isDiamond := d.isDiamond, color := color,
        position := (200, y) } :: flowNodesAux t (ci + 1) (y + 150)

/-- `const flowNodes = ...` of the explainer page. -/
def flowNodes (st : ParseState) : List FlowNode := flowNodesAux st.nodeMap 0 0

/-- The explainer page's edge conversion (identical fields). -/
def flowEdges (es : List EdgeDecl) : List FlowEdge :=
  es.enum.map (fun p => ⟨"e" ++ toString p.1, p.2.source, p.2.target, p.2.label⟩)

/-- `parseMermaidToFlow` of the explainer page: guarded against falsy
input (`if (!mermaidCode || typeof mermaidCode !== 'string')` — the falsy
string is the empty string), and total: no layout pass, so no `roots[0]`
access. -/
def parseMermaidToFlow (code : String) : List FlowNode × List FlowEdge :=
  if code = "" then ([], [])
  else
    let st := parseState code.data
    let es := finalEdges st
    (flowNodes st, flowEdges es)

end Explainer

/-! ### Helper lemmas -/

theorem finalEdges_spec (st : ParseState) :
    ((st.edgeList = [] ∧ 2 ≤ st.nodeOrder.length) →
      (Workflow.finalEdges st).length = st.nodeOrder.length - 1 ∧
      ∀ i, i < st.nodeOrder.length - 1 →
        (Workflow.finalEdges st).getD i ⟨"", "", none⟩ =
          ⟨st.nodeOrder.getD i "", st.nodeOrder.getD (i + 1) "", none⟩) ∧
    (st.edgeList ≠ [] → Workflow.finalEdges st = st.edgeList) := by
  constructor
  · rintro ⟨h1, h2⟩
    have he : st.edgeList.isEmpty = true := by simp [h1]
    have hg : decide (st.nodeOrder.length > 1) = true := by
      simp only [decide_eq_true_eq]; omega
    unfold Workflow.finalEdges
    rw [he, hg]
    simp only [Bool.and_self, if_true]
    constructor
    · simp [Workflow.chainEdges]
    · intro i hi
      simp [Workflow.chainEdges, List.getD_eq_getElem?_getD, List.getElem?_map,
            List.getElem?_range, hi]
  · intro h
    have he : st.edgeList.isEmpty = false := by
      simpa [List.isEmpty_iff] using h
    unfold Workflow.finalEdges
    rw [he]
    simp

/-! ### Claims -/

/-- C1: the spec's no-crash property — `compileDiagram` must return a
result object for every string, with the empty string yielding
`{nodes: [], edges: []}`.  The workflow page's parse + layout pipeline
violates it: for the empty string (and any other input declaring zero
nodes) `applyHierarchicalLayout` evaluates `roots[0].id` with `roots`
empty and throws a `TypeError` (modelled by `none`).  The explainer page's
copy, which guards falsy input and applies no layout, behaves as the spec
says. -/
theorem c1_zero_node_crash :
    Workflow.parseMermaidToFlow "" = none ∧
    Workflow.parseMermaidToFlow "hello world" = none ∧
    Explainer.parseMermaidToFlow "" = ([], []) := by
  refine ⟨by decide, by decide, by decide⟩

/-- C7: determinism — `parseMermaidToFlow` is embedded as a pure function
of its input (the source reads no clock, randomness or external state), so
two invocations on the same string are definitionally equal, for both
pages. -/
theorem c7_deterministic (s : String) :
    Workflow.parseMermaidToFlow s = Workflow.parseMermaidToFlow s ∧
    Explainer.parseMermaidToFlow s = Explainer.parseMermaidToFlow s :=
  ⟨rfl, rfl⟩

/-- C2: if no edge was parsed and at least two nodes were declared, the
final edge list is exactly the `n-1` synthesized consecutive edges, in
declaration order; if at least one edge was parsed, the parsed edges are
kept as-is and nothing is synthesized. -/
theorem c2_fallback_synthesis (s : String) :
    (((Workflow.parseState s.data).edgeList = [] ∧
      2 ≤ (Workflow.parseState s.data).nodeOrder.length) →
      (Workflow.finalEdges (Workflow.parseState s.data)).length =
        (Workflow.parseState s.data).nodeOrder.length - 1 ∧
      ∀ i, i < (Workflow.parseState s.data).nodeOrder.length - 1 →
        (Workflow.finalEdges (Workflow.parseState s.data)).getD i ⟨"", "", none⟩ =
          ⟨(Workflow.parseState s.data).nodeOrder.getD i "",
           (Workflow.parseState s.data).nodeOrder.getD (i + 1) "", none⟩) ∧
    ((Workflow.parseState s.data).edgeList ≠ [] →
      Workflow.finalEdges (Workflow.parseState s.data) =
        (Workflow.parseState s.data).edgeList) :=
  finalEdges_spec _

/-- Witness for C2: the fallback branch on the spec's Scenario B input (two
nodes, no recognizable edge) and the no-synthesis branch on an input with a
parsed edge. -/
theorem c2_fallback_synthesis_witness :
    (Workflow.finalEdges (Workflow.parseState "X[Foo] Y[Bar]".data)).length =
      (Workflow.parseState "X[Foo] Y[Bar]".data).nodeOrder.length - 1 ∧
    Workflow.finalEdges (Workflow.parseState "A --> B".data) =
      (Workflow.parseState "A --> B".data).edgeList :=
  ⟨((c2_fallback_synthesis "X[Foo] Y[Bar]").1 ⟨by decide, by decide⟩).1,
   (c2_fallback_synthesis "A --> B").2 (by decide)⟩

/-- Color of the `i`-th React Flow node built by the `nodeMap.forEach` pass
started at `colorIndex = ci`. -/
theorem flowNodesAux_color (l : List (String × NodeData)) :
    ∀ ci i, i < (Workflow.flowNodesAux l ci).length →
      ((Workflow.flowNodesAux l ci).getD i ⟨"", "", false, ⟨"", "", ""⟩, (0, 0)⟩).color =
        (NODE_COLORS.get? ((ci + i) % NODE_COLORS.length)).getD ⟨"", "", ""⟩ := by
  induction l with
  | nil => intro ci i h; simp [Workflow.flowNodesAux] at h
  | cons p t ih =>
    intro ci i h
    cases i with
    | zero => simp [Workflow.flowNodesAux]
    | succ j =>
      have h' : j < (Workflow.flowNodesAux t (ci + 1)).length := by
        simpa [Workflow.flowNodesAux] using h
      have step : ((Workflow.flowNodesAux (p :: t) ci).getD (j + 1)
            ⟨"", "", false, ⟨"", "", ""⟩, (0, 0)⟩) =
          ((Workflow.flowNodesAux t (ci + 1)).getD j
            ⟨"", "", false, ⟨"", "", ""⟩, (0, 0)⟩) := by
        simp [Workflow.flowNodesAux]
      rw [step, ih (ci + 1) j h']
      have : ci + 1 + j = ci + (j + 1) := by omega
      rw [this]

/-- C9: the palette is a fixed list of 8 (≥ 8) entries and the `i`-th node
in declaration order is assigned `NODE_COLORS[i % NODE_COLORS.length]`.
The right-hand side depends on nothing but `i`, so the assignment is
independent of the node's shape, its edges and its level (the layout pass
`positionNode` only rewrites `position`). -/
theorem c9_palette_cycling :
    8 ≤ NODE_COLORS.length ∧
    ∀ (s : String) (i : Nat),
      i < (((Workflow.parseMermaidToFlow s).getD ([], [])).1).length →
      ((((Workflow.parseMermaidToFlow s).getD ([], [])).1).getD i
          ⟨"", "", false, ⟨"", "", ""⟩, (0, 0)⟩).color =
        (NODE_COLORS.get? (i % NODE_COLORS.length)).getD ⟨"", "", ""⟩ := by
  refine ⟨by decide, ?_⟩
  intro s i h
  rcases happ : Workflow.applyHierarchicalLayout
      (Workflow.flowNodes (Workflow.parseState s.data))
      (Workflow.flowEdges (Workflow.finalEdges (Workflow.parseState s.data)))
    with _ | ns
  · exfalso
    simp only [Workflow.parseMermaidToFlow, happ, Option.map_none', Option.getD_none,
      List.length_nil] at h
    omega
  · have hres : Workflow.parseMermaidToFlow s =
        some (ns, Workflow.flowEdges (Workflow.finalEdges (Workflow.parseState s.data))) := by
      simp [Workflow.parseMermaidToFlow, happ]
    rw [hres] at h ⊢
    rcases hroot : Workflow.rootsAfterFallback
        (Workflow.flowNodes (Workflow.parseState s.data))
        (Workflow.flowEdges (Workflow.finalEdges (Workflow.parseState s.data)))
      with _ | ⟨root, rest⟩
    · exfalso
      rw [Workflow.applyHierarchicalLayout, hroot] at happ
      exact Option.noConfusion happ
    · rw [Workflow.applyHierarchicalLayout, hroot] at happ
      have hns : ns = (Workflow.flowNodes (Workflow.parseState s.data)).map
          (Workflow.positionNode
            (Workflow.levelsWithDefaults
              (Workflow.flowNodes (Workflow.parseState s.data))
              (Workflow.flowEdges (Workflow.finalEdges (Workflow.parseState s.data))) root)
            (Workflow.levelGroups
              (Workflow.levelsWithDefaults
                (Workflow.flowNodes (Workflow.parseState s.data))
                (Workflow.flowEdges (Workflow.finalEdges (Workflow.parseState s.data))) root))) := by
        simpa using happ.symm
      subst hns
      simp only [Option.getD_some, List.length_map] at h ⊢
      rw [List.getD_eq_getElem?_getD, List.getElem?_map,
        List.getElem?_eq_getElem h]
      simp only [Option.map_some', Option.getD_some]
      have hcolor : ∀ (m : FlowNode) lv gs,
          (Workflow.positionNode lv gs m).color = m.color := fun _ _ _ => rfl
      rw [hcolor]
      have hlen : i < (Workflow.flowNodesAux (Workflow.parseState s.data).nodeMap 0).length := by
        simpa [Workflow.flowNodes] using h
      have hval := flowNodesAux_color (Workflow.parseState s.data).nodeMap 0 i hlen
      simp only [Nat.zero_add] at hval
      rw [← hval, List.getD_eq_getElem?_getD, List.getElem?_eq_getElem hlen]
      rfl

/-- Witness for C9 at the second node of a concrete two-node input. -/
theorem c9_palette_cycling_witness :
    ((((Workflow.parseMermaidToFlow "A[Hi]\nB{{Q}}").getD ([], [])).1).getD 1
        ⟨"", "", false, ⟨"", "", ""⟩, (0, 0)⟩).color =
      (NODE_COLORS.get? (1 % NODE_COLORS.length)).getD ⟨"", "", ""⟩ :=
  c9_palette_cycling.2 "A[Hi]\nB{{Q}}" 1 (by decide)

/-- C8 counterexample: the claim that both implementations produce the
same node positions fails — on `"A[Start]\nB[End]"` the workflow page's
hierarchical layout places the nodes at (600,80) and (600,280) while the
explainer page stacks them at (200,0) and (200,150). -/
theorem c8_positions_differ :
    (Workflow.parseMermaidToFlow "A[Start]\nB[End]").map
        (fun r => r.1.map (fun n => n.position)) ≠
      some ((Explainer.parseMermaidToFlow "A[Start]\nB[End]").1.map
        (fun n => n.position)) := by
  decide

/-- Both pages run the same parse phase: the accumulated parser states are
definitionally equal. -/
theorem parseState_agree (code : List Char) :
    Explainer.parseState code = Workflow.parseState code := rfl

/-- Both pages apply the same fallback and edge conversion. -/
theorem edgePipeline_agree (st : ParseState) :
    Explainer.flowEdges (Explainer.finalEdges st) =
      Workflow.flowEdges (Workflow.finalEdges st) := rfl

/-- The node conversions of the two pages agree on everything except the
position: ids, labels and shapes coincide entrywise. -/
theorem flowNodesAux_proj_agree (l : List (String × NodeData)) :
    ∀ ci y, (Explainer.flowNodesAux l ci y).map (fun n => (n.id, n.label, n.isDiamond)) =
      (Workflow.flowNodesAux l ci).map (fun n => (n.id, n.label, n.isDiamond)) := by
  induction l with
  | nil => intro ci y; rfl
  | cons p t ih =>
    intro ci y
    by_cases hd : p.2.isDiamond <;>
      simp [Explainer.flowNodesAux, Workflow.flowNodesAux, hd, ih]

/-- C8, amended: for every input on which the workflow page's pipeline
returns (it throws on zero-node inputs), the two implementations produce
the same ordered node list up to position — same ids, labels and shapes —
and exactly the same ordered edge list; the positions themselves differ
(`c8_positions_differ`): the workflow page applies the hierarchical
layout, the explainer page a fixed vertical stack. -/
theorem c8_parse_agree (s : String) (r : List FlowNode × List FlowEdge)
    (h : Workflow.parseMermaidToFlow s = some r) :
    r.1.map (fun n => (n.id, n.label, n.isDiamond)) =
      (Explainer.parseMermaidToFlow s).1.map (fun n => (n.id, n.label, n.isDiamond)) ∧
    r.2 = (Explainer.parseMermaidToFlow s).2 := by
  by_cases hs : s = ""
  · subst hs
    have hnone : Workflow.parseMermaidToFlow "" = none := by decide
    rw [hnone] at h
    exact Option.noConfusion h
  · rcases happ : Workflow.applyHierarchicalLayout
        (Workflow.flowNodes (Workflow.parseState s.data))
        (Workflow.flowEdges (Workflow.finalEdges (Workflow.parseState s.data)))
      with _ | ns
    · exfalso
      simp only [Workflow.parseMermaidToFlow, happ, Option.map_none'] at h
      exact Option.noConfusion h
    · have hr : r = (ns, Workflow.flowEdges (Workflow.finalEdges (Workflow.parseState s.data))) := by
        have := h
        simp only [Workflow.parseMermaidToFlow, happ, Option.map_some',
          Option.some.injEq] at this
        exact this.symm
      subst hr
      rcases hroot : Workflow.rootsAfterFallback
          (Workflow.flowNodes (Workflow.parseState s.data))
          (Workflow.flowEdges (Workflow.finalEdges (Workflow.parseState s.data)))
        with _ | ⟨root, rest⟩
      · exfalso
        rw [Workflow.applyHierarchicalLayout, hroot] at happ
        exact Option.noConfusion happ
      · rw [Workflow.applyHierarchicalLayout, hroot] at happ
        dsimp only at happ
        have hns' := (Option.some.inj happ).symm
        constructor
        · rw [hns']
          rw [List.map_map]
          have hproj : ∀ lv gs, ((fun n : FlowNode => (n.id, n.label, n.isDiamond)) ∘
              Workflow.positionNode lv gs) =
              (fun n : FlowNode => (n.id, n.label, n.isDiamond)) := by
            intro lv gs; funext m; rfl
          rw [hproj]
          rw [show Explainer.parseMermaidToFlow s =
              (Explainer.flowNodes (Explainer.parseState s.data),
               Explainer.flowEdges (Explainer.finalEdges (Explainer.parseState s.data))) from by
            simp [Explainer.parseMermaidToFlow, hs]]
          rw [show Explainer.parseState s.data = Workflow.parseState s.data from rfl]
          exact (flowNodesAux_proj_agree (Workflow.parseState s.data).nodeMap 0 0).symm
        · rw [show Explainer.parseMermaidToFlow s =
              (Explainer.flowNodes (Explainer.parseState s.data),
               Explainer.flowEdges (Explainer.finalEdges (Explainer.parseState s.data))) from by
            simp [Explainer.parseMermaidToFlow, hs]]
          rfl

/-- Witness for C8's amended theorem at the spec's Scenario A input. -/
theorem c8_parse_agree_witness :
    ((Workflow.parseMermaidToFlow "flowchart\nA[S] --> B[P]").getD ([], [])).1.map
        (fun n => (n.id, n.label, n.isDiamond)) =
      (Explainer.parseMermaidToFlow "flowchart\nA[S] --> B[P]").1.map
        (fun n => (n.id, n.label, n.isDiamond)) := by
  have h := c8_parse_agree "flowchart\nA[S] --> B[P]"
    ((Workflow.parseMermaidToFlow "flowchart\nA[S] --> B[P]").getD ([], []))
    (by decide)
  exact h.1

/-- Node-declaration processing never touches the edge list. -/
theorem addNodeDecl_edgeList (b : Bool) (st : ParseState) (m : List (List Char)) :
    (Workflow.addNodeDecl b st m).edgeList = st.edgeList := by
  unfold Workflow.addNodeDecl
  dsimp only
  split <;> rfl

/-- Folding node-declaration processing never touches the edge list. -/
theorem foldl_addNodeDecl_edgeList (b : Bool) (ms : List (List (List Char))) :
    ∀ st : ParseState, (ms.foldl (Workflow.addNodeDecl b) st).edgeList = st.edgeList := by
  induction ms with
  | nil => intro st; rfl
  | cons m t ih => intro st; rw [List.foldl_cons, ih, addNodeDecl_edgeList]

/-- One line appends the edge of its first matching pattern (if any) to the
edge list. -/
theorem processLine_edgeList (st : ParseState) (l : List Char) :
    (Workflow.processLine st l).edgeList =
      st.edgeList ++ (Workflow.extractEdge (jsTrim l)).toList := by
  unfold Workflow.processLine
  cases he : Workflow.extractEdge (jsTrim l) with
  | none => simp [he, foldl_addNodeDecl_edgeList]
  | some e => simp [he, foldl_addNodeDecl_edgeList]

/-- The scan accumulates edges line by line, in line order, at most one per
line. -/
theorem foldl_processLine_edgeList (lines : List (List Char)) :
    ∀ st : ParseState, ((lines.foldl Workflow.processLine st).edgeList) =
      st.edgeList ++ lines.filterMap (fun l => Workflow.extractEdge (jsTrim l)) := by
  induction lines with
  | nil => intro st; simp
  | cons l t ih =>
    intro st
    rw [List.foldl_cons, ih, processLine_edgeList, List.filterMap_cons]
    cases he : Workflow.extractEdge (jsTrim l) <;> simp [he]

/-- C4: the parsed edge list equals, line by line and in line order, the
result of trying the four connection patterns in order of specificity —
labeled fully-bracketed, unlabeled fully-bracketed, bare source with
bracketed target, fully bare — taking the first match and never falling
through to a weaker pattern once a stronger one matched; each line
contributes at most one edge (the per-line extractor is `Option`-valued). -/
theorem c4_edge_pattern_precedence :
    (∀ code : List Char, (Workflow.parseState code).edgeList =
      (Workflow.parseLines code).filterMap (fun l => Workflow.extractEdge (jsTrim l))) ∧
    (∀ t : List Char,
      (∀ r, findMatch edgePat1 t = some r →
        Workflow.extractEdge t = some ⟨String.mk (jsTrim (r.1.getD 0 [])),
          String.mk (jsTrim (r.1.getD 2 [])),
          some (String.mk (jsTrim (r.1.getD 1 [])))⟩) ∧
      (findMatch edgePat1 t = none → ∀ r, findMatch edgePat2 t = some r →
        Workflow.extractEdge t = some ⟨String.mk (jsTrim (r.1.getD 0 [])),
          String.mk (jsTrim (r.1.getD 1 [])), none⟩) ∧
      (findMatch edgePat1 t = none → findMatch edgePat2 t = none →
        ∀ r, findMatch edgePat3 t = some r →
        Workflow.extractEdge t = some ⟨String.mk (jsTrim (r.1.getD 0 [])),
          String.mk (jsTrim (r.1.getD 1 [])), none⟩) ∧
      (findMatch edgePat1 t = none → findMatch edgePat2 t = none →
        findMatch edgePat3 t = none → ∀ r, findMatch edgePat4 t = some r →
        Workflow.extractEdge t = some ⟨String.mk (jsTrim (r.1.getD 0 [])),
          String.mk (jsTrim (r.1.getD 1 [])), none⟩) ∧
      (findMatch edgePat1 t = none → findMatch edgePat2 t = none →
        findMatch edgePat3 t = none → findMatch edgePat4 t = none →
        Workflow.extractEdge t = none)) := by
  constructor
  · intro code
    exact foldl_processLine_edgeList (Workflow.parseLines code) ⟨[], [], []⟩
  · intro t
    refine ⟨?_, ?_, ?_, ?_, ?_⟩
    · intro r h1
      unfold Workflow.extractEdge
      rw [h1]
    · intro h1 r h2
      unfold Workflow.extractEdge
      rw [h1, h2]
    · intro h1 h2 r h3
      unfold Workflow.extractEdge
      rw [h1, h2, h3]
    · intro h1 h2 h3 r h4
      unfold Workflow.extractEdge
      rw [h1, h2, h3, h4]
    · intro h1 h2 h3 h4
      unfold Workflow.extractEdge
      rw [h1, h2, h3, h4]

/-- Witness for C4: the line order of parsed edges on a two-line input and
the pattern-1-wins case on a concrete labeled line. -/
theorem c4_edge_pattern_precedence_witness :
    (Workflow.parseState "A[x] --> B[y]\nC --> D".data).edgeList =
      (Workflow.parseLines "A[x] --> B[y]\nC --> D".data).filterMap
        (fun l => Workflow.extractEdge (jsTrim l)) ∧
    Workflow.extractEdge "A[x] -->|go| B[y]".data = some ⟨"A", "B", some "go"⟩ := by
  constructor
  · exact c4_edge_pattern_precedence.1 "A[x] --> B[y]\nC --> D".data
  · have h := (c4_edge_pattern_precedence.2 "A[x] -->|go| B[y]".data).1
      (["A".data, "go".data, "B".data], "y]".data) (by decide)
    simpa using h

/-! ### Specification vocabulary for the node-identity claim -/

/-- A node declaration as it appears in the scanning order of the source:
one regex match, with the trimmed label and the shape of the pattern that
produced it. -/
structure Decl where
  id : String
  label : String
  isDiamond : Bool
deriving DecidableEq, Repr

/-- The declaration a node-pattern match contributes. -/
def declOfMatch (isDiamond : Bool) (m : List (List Char)) : Decl :=
  ⟨String.mk (m.getD 0 []), String.mk (jsTrim (m.getD 1 [])), isDiamond⟩

/-- All node declarations of one (trimmed) line, in the order the source
scans them: every diamond match, then every square match. -/
def lineDecls (t : List Char) : List Decl :=
  (matchAll diamondPat t).map (declOfMatch true) ++
  (matchAll squarePat t).map (declOfMatch false)

/-- The whole declaration stream of an input, line by line. -/
def declStream (code : List Char) : List Decl :=
  (Workflow.parseLines code).flatMap (fun l => lineDecls (jsTrim l))

/-- Keep the first occurrence of every identifier (specification-side
description of the `nodeMap.has` guard). -/
def dedupFirst (seen : List String) : List String → List String
  | [] => []
  | x :: t => if x ∈ seen then dedupFirst seen t else x :: dedupFirst (seen ++ [x]) t

theorem mapHas_iff_isSome [DecidableEq κ] (m : List (κ × α)) (k : κ) :
    mapHas m k = true ↔ (mapGet k m).isSome = true := by
  induction m with
  | nil => simp [mapHas, mapGet]
  | cons p t ih =>
    by_cases h : p.1 = k
    · simp [mapHas, mapGet, h]
    · simp only [mapHas, List.any_cons, decide_eq_true_eq, h, false_or, mapGet, if_neg h]
      exact ih

theorem mapGet_append_single [DecidableEq κ] (m : List (κ × α)) (k k' : κ) (v : α) :
    mapGet k (m ++ [(k', v)]) =
      ((mapGet k m).or (if k' = k then some v else none)) := by
  induction m with
  | nil => simp [mapGet]
  | cons p t ih =>
    by_cases h : p.1 = k
    · simp [mapGet, h]
    · simpa [mapGet, h] using ih

theorem dedupFirst_append_single (l : List String) :
    ∀ seen x, dedupFirst seen (l ++ [x]) =
      dedupFirst seen l ++ (if x ∈ seen ∨ x ∈ l then [] else [x]) := by
  induction l with
  | nil => intro seen x; by_cases h : x ∈ seen <;> simp [dedupFirst, h]
  | cons y t ih =>
    intro seen x
    by_cases hy : y ∈ seen
    · rw [List.cons_append]
      rw [show dedupFirst seen (y :: (t ++ [x])) = dedupFirst seen (t ++ [x]) from by
        simp [dedupFirst, hy]]
      rw [show dedupFirst seen (y :: t) = dedupFirst seen t from by
        simp [dedupFirst, hy]]
      rw [ih seen x]
      congr 1
      by_cases hx : x ∈ seen ∨ x ∈ t
      · rw [if_pos hx, if_pos (by rcases hx with h | h; exact Or.inl h; exact Or.inr (List.mem_cons_of_mem _ h))]
      · rw [if_neg hx]
        rw [if_neg ?_]
        rintro (h | h)
        · exact hx (Or.inl h)
        · rcases List.mem_cons.mp h with rfl | h'
          · exact hx (Or.inl hy)
          · exact hx (Or.inr h')
    · rw [List.cons_append]
      rw [show dedupFirst seen (y :: (t ++ [x])) =
            y :: dedupFirst (seen ++ [y]) (t ++ [x]) from by simp [dedupFirst, hy]]
      rw [show dedupFirst seen (y :: t) = y :: dedupFirst (seen ++ [y]) t from by
        simp [dedupFirst, hy]]
      rw [ih (seen ++ [y]) x]
      rw [List.cons_append]
      congr 2
      by_cases hx : x ∈ seen ++ [y] ∨ x ∈ t
      · rw [if_pos hx, if_pos ?_]
        rcases hx with h | h
        · rcases List.mem_append.mp h with h' | h'
          · exact Or.inl h'
          · simp only [List.mem_singleton] at h'
            exact Or.inr (h' ▸ List.mem_cons_self _ _)
        · exact Or.inr (List.mem_cons_of_mem _ h)
      · rw [if_neg hx, if_neg ?_]
        rintro (h | h)
        · exact hx (Or.inl (List.mem_append.mpr (Or.inl h)))
        · rcases List.mem_cons.mp h with rfl | h'
          · exact hx (Or.inl (List.mem_append.mpr (Or.inr (List.mem_singleton.mpr rfl))))
          · exact hx (Or.inr h')

theorem mem_dedupFirst (l : List String) :
    ∀ seen x, x ∈ dedupFirst seen l ↔ x ∈ l ∧ x ∉ seen := by
  induction l with
  | nil => intro seen x; simp [dedupFirst]
  | cons y t ih =>
    intro seen x
    by_cases hy : y ∈ seen
    · rw [show dedupFirst seen (y :: t) = dedupFirst seen t from by simp [dedupFirst, hy]]
      rw [ih]
      constructor
      · rintro ⟨h1, h2⟩; exact ⟨List.mem_cons_of_mem _ h1, h2⟩
      · rintro ⟨h1, h2⟩
        rcases List.mem_cons.mp h1 with rfl | h1'
        · exact absurd hy h2
        · exact ⟨h1', h2⟩
    · rw [show dedupFirst seen (y :: t) = y :: dedupFirst (seen ++ [y]) t from by
        simp [dedupFirst, hy]]
      rw [List.mem_cons, ih]
      constructor
      · rintro (rfl | ⟨h1, h2⟩)
        · exact ⟨List.mem_cons_self _ _, hy⟩
        · refine ⟨List.mem_cons_of_mem _ h1, fun hc => h2 ?_⟩
          exact List.mem_append.mpr (Or.inl hc)
      · rintro ⟨h1, h2⟩
        rcases List.mem_cons.mp h1 with rfl | h1'
        · exact Or.inl rfl
        · by_cases hxy : x = y
          · exact Or.inl hxy
          · refine Or.inr ⟨h1', fun hc => ?_⟩
            rcases List.mem_append.mp hc with h | h
            · exact h2 h
            · exact hxy (List.mem_singleton.mp h)

/-- The invariant tying the parser state to the prefix of the declaration
stream processed so far. -/
def NodeInv (st : ParseState) (ds : List Decl) : Prop :=
  st.nodeOrder = dedupFirst [] (ds.map Decl.id) ∧
  st.nodeMap.map Prod.fst = st.nodeOrder ∧
  ∀ id, mapGet id st.nodeMap =
    (ds.find? (fun d => d.id = id)).map (fun d => (⟨d.label, d.isDiamond⟩ : NodeData))

theorem addNodeDecl_inv (b : Bool) (st : ParseState) (ds : List Decl)
    (m : List (List Char)) (h : NodeInv st ds) :
    NodeInv (Workflow.addNodeDecl b st m) (ds ++ [declOfMatch b m]) := by
  obtain ⟨h1, h2, h3⟩ := h
  by_cases hhas : mapHas st.nodeMap (String.mk (m.getD 0 [])) = true
  · have hst : Workflow.addNodeDecl b st m = st := by
      simp only [Workflow.addNodeDecl]
      rw [if_pos hhas]
    have hse : (ds.find? (fun d => d.id = String.mk (m.getD 0 []))).isSome = true := by
      have := (mapHas_iff_isSome st.nodeMap (String.mk (m.getD 0 []))).mp hhas
      rw [h3] at this
      simpa using this
    have hmem : String.mk (m.getD 0 []) ∈ ds.map Decl.id := by
      rcases List.find?_isSome.mp hse with ⟨d, hd, hp⟩
      simp only [decide_eq_true_eq] at hp
      exact hp ▸ List.mem_map_of_mem _ hd
    rw [hst]
    refine ⟨?_, h2, ?_⟩
    · rw [List.map_append, List.map_cons, List.map_nil,
        dedupFirst_append_single, if_pos (Or.inr ?_)]
      · simpa using h1
      · simpa [declOfMatch] using hmem
    · intro id
      rw [h3 id, List.find?_append]
      cases hfd : ds.find? (fun d => d.id = id) with
      | some d => simp
      | none =>
        simp only [Option.none_or]
        cases hfd2 : List.find? (fun d => d.id = id) [declOfMatch b m] with
        | none => simp
        | some d =>
          exfalso
          have : (declOfMatch b m).id = id := by
            have := List.find?_some hfd2
            have hmem2 := List.mem_of_find?_eq_some hfd2
            simp only [List.mem_singleton] at hmem2
            subst hmem2
            simpa using this
          rw [← this] at hfd
          simp only [declOfMatch] at hfd
          rw [List.find?_eq_none] at hfd
          rcases List.find?_isSome.mp hse with ⟨d', hd', hp'⟩
          exact absurd hp' (by simpa using hfd d' hd')
  · have hst : Workflow.addNodeDecl b st m =
        { st with
          nodeMap := st.nodeMap ++ [(String.mk (m.getD 0 []),
            ⟨String.mk (jsTrim (m.getD 1 [])), b⟩)],
          nodeOrder := st.nodeOrder ++ [String.mk (m.getD 0 [])] } := by
      simp only [Workflow.addNodeDecl]
      rw [if_neg hhas]
    have hnone : ds.find? (fun d => d.id = String.mk (m.getD 0 [])) = none := by
      cases hfd : ds.find? (fun d => d.id = String.mk (m.getD 0 [])) with
      | none => rfl
      | some d =>
        exfalso
        apply hhas
        rw [mapHas_iff_isSome, h3, hfd]
        simp
    have hnm : String.mk (m.getD 0 []) ∉ ds.map Decl.id := by
      intro hc
      rcases List.mem_map.mp hc with ⟨d, hd, hid⟩
      rw [List.find?_eq_none] at hnone
      exact absurd (by simpa using hid) (by simpa using hnone d hd)
    rw [hst]
    refine ⟨?_, ?_, ?_⟩
    · simp only [List.map_append, List.map_cons, List.map_nil]
      rw [dedupFirst_append_single, if_neg ?_]
      · simp only [declOfMatch]
        rw [h1]
      · rintro (hc | hc)
        · simp at hc
        · exact hnm (by simpa [declOfMatch] using hc)
    · simp only [List.map_append, h2, h1]
      simp
    · intro id
      rw [mapGet_append_single, h3 id, List.find?_append]
      cases hfd : ds.find? (fun d => decide (d.id = id)) with
      | some d => simp
      | none =>
        simp only [Option.map_none', Option.none_or]
        by_cases hid : String.mk (m.getD 0 []) = id
        · rw [if_pos hid]
          rw [show List.find? (fun d => decide (d.id = id)) [declOfMatch b m] =
              some (declOfMatch b m) from by
            simp only [List.find?_cons, List.find?_nil]
            rw [show decide ((declOfMatch b m).id = id) = true from by
              simpa [declOfMatch] using hid]]
          simp [declOfMatch]
        · rw [if_neg hid]
          rw [show List.find? (fun d => decide (d.id = id)) [declOfMatch b m] =
              none from by
            simp only [List.find?_cons, List.find?_nil]
            rw [show decide ((declOfMatch b m).id = id) = false from by
              simpa [declOfMatch] using hid]]
          simp

theorem foldl_addNodeDecl_inv (b : Bool) (ms : List (List (List Char))) :
    ∀ st ds, NodeInv st ds →
      NodeInv (ms.foldl (Workflow.addNodeDecl b) st) (ds ++ ms.map (declOfMatch b)) := by
  induction ms with
  | nil => intro st ds h; simpa using h
  | cons m t ih =>
    intro st ds h
    rw [List.foldl_cons, List.map_cons]
    have := ih (Workflow.addNodeDecl b st m) (ds ++ [declOfMatch b m])
      (addNodeDecl_inv b st ds m h)
    simpa using this

/-- The edge list appended at the end of a line does not affect the node
bookkeeping. -/
theorem processLine_inv (st : ParseState) (ds : List Decl) (l : List Char)
    (h : NodeInv st ds) :
    NodeInv (Workflow.processLine st l) (ds ++ lineDecls (jsTrim l)) := by
  unfold Workflow.processLine
  have h1 := foldl_addNodeDecl_inv true (matchAll diamondPat (jsTrim l)) st ds h
  have h2 := foldl_addNodeDecl_inv false (matchAll squarePat (jsTrim l))
    ((matchAll diamondPat (jsTrim l)).foldl (Workflow.addNodeDecl true) st)
    (ds ++ (matchAll diamondPat (jsTrim l)).map (declOfMatch true)) h1
  rw [List.append_assoc] at h2
  rw [show lineDecls (jsTrim l) = (matchAll diamondPat (jsTrim l)).map (declOfMatch true) ++
      (matchAll squarePat (jsTrim l)).map (declOfMatch false) from rfl]
  cases he : Workflow.extractEdge (jsTrim l) with
  | none =>
    simp only [he]
    simpa using h2
  | some e =>
    simp only [he]
    obtain ⟨g1, g2, g3⟩ := h2
    exact ⟨by simpa using g1, by simpa using g2, by simpa using g3⟩

theorem foldl_processLine_inv (lines : List (List Char)) :
    ∀ st ds, NodeInv st ds →
      NodeInv (lines.foldl Workflow.processLine st)
        (ds ++ lines.flatMap (fun l => lineDecls (jsTrim l))) := by
  induction lines with
  | nil => intro st ds h; simpa using h
  | cons l t ih =>
    intro st ds h
    rw [List.foldl_cons, List.flatMap_cons]
    have := ih (Workflow.processLine st l) (ds ++ lineDecls (jsTrim l))
      (processLine_inv st ds l h)
    simpa using this

/-- C5: the node list records every declaration of the stream — all
matches of a line, diamonds scanned before squares — keyed by identifier,
keeping the first sighting: `nodeOrder` is the identifier stream with later
duplicates removed, the map keys equal `nodeOrder` (first-seen order), the
stored label and shape are those of the first declaration with that
identifier, and every declared identifier does appear. -/
theorem c5_first_sighting_wins (code : List Char) :
    (Workflow.parseState code).nodeOrder =
      dedupFirst [] ((declStream code).map Decl.id) ∧
    (Workflow.parseState code).nodeMap.map Prod.fst =
      (Workflow.parseState code).nodeOrder ∧
    (∀ id, mapGet id (Workflow.parseState code).nodeMap =
      ((declStream code).find? (fun d => d.id = id)).map
        (fun d => (⟨d.label, d.isDiamond⟩ : NodeData))) ∧
    (∀ d ∈ declStream code, d.id ∈ (Workflow.parseState code).nodeOrder) := by
  have hinv : NodeInv (Workflow.parseState code) (declStream code) := by
    have h0 : NodeInv ⟨[], [], []⟩ [] :=
      ⟨rfl, rfl, fun id => by simp [mapGet]⟩
    have := foldl_processLine_inv (Workflow.parseLines code) ⟨[], [], []⟩ [] h0
    simpa [Workflow.parseState, declStream] using this
  obtain ⟨h1, h2, h3⟩ := hinv
  refine ⟨h1, h2, h3, ?_⟩
  intro d hd
  rw [h1, mem_dedupFirst]
  exact ⟨List.mem_map_of_mem _ hd, by simp⟩

/-- Witness for C5: on an input with a duplicate declaration (the spec's
Scenario D plus a second line), the declared identifier "B" is in the node
order, by applying the theorem to the concrete declaration. -/
theorem c5_first_sighting_wins_witness :
    ("B" : String) ∈ (Workflow.parseState "A[One]\nA{{Two}}\nB[X] --> A".data).nodeOrder :=
  (c5_first_sighting_wins "A[One]\nA{{Two}}\nB[X] --> A".data).2.2.2
    ⟨"B", "X", false⟩ (by decide)

theorem mapGet_map_overwrite [DecidableEq κ] (m : List (κ × α)) (k : κ) (v : α) :
    mapGet k (m.map (fun p => if p.1 = k then (k, v) else p)) =
      if mapHas m k then some v else none := by
  induction m with
  | nil => simp [mapGet, mapHas]
  | cons p t ih =>
    by_cases h : p.1 = k
    · simp [mapGet, mapHas, h]
    · simp only [List.map_cons, if_neg h, mapHas, List.any_cons, mapGet, ih]
      simp only [decide_eq_false h, Bool.false_or]

theorem mapGet_map_overwrite_ne [DecidableEq κ] (m : List (κ × α)) (k k' : κ) (v : α)
    (hne : k' ≠ k) :
    mapGet k' (m.map (fun p => if p.1 = k then (k, v) else p)) = mapGet k' m := by
  induction m with
  | nil => simp [mapGet]
  | cons p t ih =>
    by_cases h : p.1 = k
    · have hkk : ¬(k = k') := fun hc => hne hc.symm
      have hpk : ¬(p.1 = k') := by rw [h]; exact hkk
      simp [mapGet, h, hkk, hpk, ih]
    · by_cases h2 : p.1 = k'
      · simp [mapGet, h, h2, hne]
      · simp [mapGet, h, h2, ih]

theorem mapGet_mapSet_self [DecidableEq κ] (m : List (κ × α)) (k : κ) (v : α) :
    mapGet k (mapSet m k v) = some v := by
  unfold mapSet
  by_cases h : mapHas m k
  · rw [if_pos h, mapGet_map_overwrite, if_pos h]
  · rw [if_neg h, mapGet_append_single]
    have : mapGet k m = none := by
      cases hg : mapGet k m with
      | none => rfl
      | some w => exact absurd ((mapHas_iff_isSome m k).mpr (by simp [hg])) h
    simp [this]

theorem mapGet_mapSet_ne [DecidableEq κ] (m : List (κ × α)) (k k' : κ) (v : α)
    (hne : k' ≠ k) :
    mapGet k' (mapSet m k v) = mapGet k' m := by
  unfold mapSet
  by_cases h : mapHas m k
  · rw [if_pos h, mapGet_map_overwrite_ne _ _ _ _ hne]
  · rw [if_neg h, mapGet_append_single]
    rw [if_neg (fun hc => hne hc.symm)]
    simp

theorem mapGet_initFold (ns : List FlowNode) :
    ∀ (m : List (String × Nat)) (k : String),
      mapGet k (ns.foldl (fun m n => mapSet m n.id 0) m) =
        if ns.any (fun n => n.id = k) then some 0 else mapGet k m := by
  induction ns with
  | nil => intro m k; simp
  | cons n t ih =>
    intro m k
    rw [List.foldl_cons, ih]
    by_cases ht : t.any (fun n => n.id = k)
    · simp [ht]
    · by_cases hk : n.id = k
      · subst hk
        simp [ht, mapGet_mapSet_self]
      · rw [mapGet_mapSet_ne _ _ _ _ (fun hc => hk hc.symm)]
        simp [ht, hk]

theorem mapGet_incFold (es : List FlowEdge) :
    ∀ (m : List (String × Nat)) (k : String),
      mapGet k (es.foldl
          (fun m e => mapSet m e.target ((mapGet e.target m).getD 0 + 1)) m) =
        if (mapGet k m).isSome || decide (0 < es.countP (fun e => e.target = k)) then
          some ((mapGet k m).getD 0 + es.countP (fun e => e.target = k))
        else none := by
  induction es with
  | nil => intro m k; cases h : mapGet k m <;> simp [h]
  | cons e t ih =>
    intro m k
    rw [List.foldl_cons, ih]
    by_cases hk : e.target = k
    · subst hk
      rw [mapGet_mapSet_self]
      rw [List.countP_cons]
      simp
      omega
    · rw [mapGet_mapSet_ne _ _ _ _ (fun hc => hk hc.symm)]
      rw [List.countP_cons]
      simp [hk]

theorem mapGet_incomingCount (ns : List FlowNode) (es : List FlowEdge)
    (n : FlowNode) (hn : n ∈ ns) :
    mapGet n.id (Workflow.incomingCount ns es) =
      some (es.countP (fun e => e.target = n.id)) := by
  unfold Workflow.incomingCount
  rw [mapGet_incFold, mapGet_initFold]
  have hany : ns.any (fun m => m.id = n.id) = true := by
    simp only [List.any_eq_true, decide_eq_true_eq]
    exact ⟨n, hn, rfl⟩
  rw [if_pos hany]
  simp

instance : IsTotal FlowNode (fun a b => a.id ≤ b.id) :=
  ⟨fun a b => le_total a.id b.id⟩

instance : IsTrans FlowNode (fun a b => a.id ≤ b.id) :=
  ⟨fun _ _ _ hab hbc => le_trans hab hbc⟩

theorem sortedRoots_sorted (ns : List FlowNode) (es : List FlowEdge) :
    List.Sorted (fun a b : FlowNode => a.id ≤ b.id) (Workflow.sortedRoots ns es) :=
  List.sorted_insertionSort _ _

theorem mem_sortedRoots (ns : List FlowNode) (es : List FlowEdge) (n : FlowNode) :
    n ∈ Workflow.sortedRoots ns es ↔
      n ∈ ns ∧ es.countP (fun e => e.target = n.id) = 0 := by
  unfold Workflow.sortedRoots
  rw [List.mem_insertionSort, List.mem_filter]
  constructor
  · rintro ⟨h1, h2⟩
    refine ⟨h1, ?_⟩
    rw [mapGet_incomingCount ns es n h1] at h2
    simpa using h2
  · rintro ⟨h1, h2⟩
    refine ⟨h1, ?_⟩
    rw [mapGet_incomingCount ns es n h1]
    simpa using h2

theorem rootsAfterFallback_smallest (ns : List FlowNode) (es : List FlowEdge)
    (hroots : Workflow.sortedRoots ns es = []) (hns : ns ≠ []) :
    ∃ r, Workflow.rootsAfterFallback ns es = [r] ∧ r ∈ ns ∧
      ∀ n ∈ ns, r.id ≤ n.id := by
  unfold Workflow.rootsAfterFallback
  rw [hroots]
  have hne : (List.insertionSort (fun a b : FlowNode => a.id ≤ b.id) ns) ≠ [] := by
    intro hc
    have := List.perm_insertionSort (fun a b : FlowNode => a.id ≤ b.id) ns
    rw [hc] at this
    exact hns (this.symm.eq_nil)
  rcases hsort : List.insertionSort (fun a b : FlowNode => a.id ≤ b.id) ns with _ | ⟨r, rest⟩
  · exact absurd hsort hne
  · refine ⟨r, ?_, ?_, ?_⟩
    · simp [List.isEmpty_iff, hns]
    · have : r ∈ List.insertionSort (fun a b : FlowNode => a.id ≤ b.id) ns := by
        rw [hsort]; exact List.mem_cons_self _ _
      rwa [List.mem_insertionSort] at this
    · intro n hn
      have hnmem : n ∈ List.insertionSort (fun a b : FlowNode => a.id ≤ b.id) ns := by
        rwa [List.mem_insertionSort]
      rw [hsort] at hnmem
      rcases List.mem_cons.mp hnmem with rfl | hmem
      · exact le_refl _
      · have hsorted := List.sorted_insertionSort
          (fun a b : FlowNode => a.id ≤ b.id) ns
        rw [hsort] at hsorted
        exact (List.sorted_cons.mp hsorted).1 n hmem

/-- The property every BFS bookkeeping entry satisfies: either it is the
initial root entry at level 0, or it was enqueued along some edge from an
already-leveled parent with level one less (the claim's "first reached via
`u`" event). -/
def GoodEntry (es : List FlowEdge) (root : String) (levels : List (String × Nat))
    (q : String × Nat) : Prop :=
  (q.1 = root ∧ q.2 = 0) ∨
  ∃ u lu, (u, lu) ∈ levels ∧ (∃ e ∈ es, e.source = u ∧ e.target = q.1) ∧
    q.2 = lu + 1

theorem GoodEntry.mono {es : List FlowEdge} {root : String}
    {levels levels' : List (String × Nat)} {q : String × Nat}
    (hsub : ∀ x ∈ levels, x ∈ levels') (h : GoodEntry es root levels q) :
    GoodEntry es root levels' q := by
  rcases h with h | ⟨u, lu, h1, h2, h3⟩
  · exact Or.inl h
  · exact Or.inr ⟨u, lu, hsub _ h1, h2, h3⟩

theorem bfsRun_invariant (es : List FlowEdge) (root : String) :
    ∀ (fuel : Nat) (queue : List (String × Nat)) (visited : List String)
      (levels : List (String × Nat)),
      levels.map Prod.fst = visited →
      visited.Nodup →
      (∀ q ∈ queue, GoodEntry es root levels q) →
      (∀ x ∈ levels, GoodEntry es root levels x) →
      ((Workflow.bfsRun es fuel queue visited levels).map Prod.fst).Nodup ∧
      (∀ x ∈ Workflow.bfsRun es fuel queue visited levels,
        GoodEntry es root (Workflow.bfsRun es fuel queue visited levels) x) := by
  intro fuel
  induction fuel with
  | zero =>
    intro queue visited levels h1 h2 _ h4
    exact ⟨h1 ▸ h2, fun x hx => h4 x hx⟩
  | succ f ih =>
    intro queue visited levels h1 h2 h3 h4
    cases queue with
    | nil =>
      exact ⟨h1 ▸ h2, fun x hx => h4 x hx⟩
    | cons q rest =>
      obtain ⟨id, lvl⟩ := q
      by_cases hv : id ∈ visited
      · rw [show Workflow.bfsRun es (f + 1) ((id, lvl) :: rest) visited levels =
            Workflow.bfsRun es f rest visited levels from by
          rw [Workflow.bfsRun]; simp [hv]]
        exact ih rest visited levels h1 h2 (fun q hq => h3 q (List.mem_cons_of_mem _ hq)) h4
      · rw [show Workflow.bfsRun es (f + 1) ((id, lvl) :: rest) visited levels =
            Workflow.bfsRun es f
              (rest ++ (es.filter (fun e => e.source = id &&
                  !((visited ++ [id]).contains e.target))).map
                (fun e => (e.target, lvl + 1)))
              (visited ++ [id]) (levels ++ [(id, lvl)]) from by
          rw [Workflow.bfsRun]; simp [hv]]
        have hsub : ∀ x ∈ levels, x ∈ levels ++ [(id, lvl)] := by
          intro x hx; exact List.mem_append.mpr (Or.inl hx)
        apply ih
        · rw [List.map_append, h1]; rfl
        · rw [List.nodup_append]
          exact ⟨h2, List.nodup_singleton _, by simpa using hv⟩
        · intro q hq
          rcases List.mem_append.mp hq with hq | hq
          · exact (h3 q (List.mem_cons_of_mem _ hq)).mono hsub
          · rcases List.mem_map.mp hq with ⟨e, he, rfl⟩
            have hef := List.mem_filter.mp he
            refine Or.inr ⟨id, lvl, List.mem_append.mpr (Or.inr (by simp)), ?_, rfl⟩
            have hef2 : e.source = id ∧ e.target ∉ visited ∧ ¬e.target = id := by
              simpa using hef.2
            exact ⟨e, hef.1, hef2.1, rfl⟩
        · intro x hx
          rcases List.mem_append.mp hx with hx | hx
          · exact (h4 x hx).mono hsub
          · have : x = (id, lvl) := by simpa using hx
            subst this
            exact (h3 (id, lvl) (List.mem_cons_self _ _)).mono hsub

theorem mapGet_defaultsFold (ns : List FlowNode) :
    ∀ (lv : List (String × Nat)) (k : String),
      mapGet k (ns.foldl
          (fun lv n => if mapHas lv n.id then lv else lv ++ [(n.id, 0)]) lv) =
        if (mapGet k lv).isSome then mapGet k lv
        else if ns.any (fun n => n.id = k) then some 0 else none := by
  induction ns with
  | nil =>
    intro lv k
    cases h : mapGet k lv <;> simp [h]
  | cons n t ih =>
    intro lv k
    rw [List.foldl_cons, ih]
    by_cases hhas : mapHas lv n.id
    · rw [if_pos hhas]
      by_cases hs : (mapGet k lv).isSome
      · simp [hs]
      · rw [if_neg hs, if_neg hs]
        by_cases hk : n.id = k
        · exfalso
          apply hs
          rw [← hk]
          exact (mapHas_iff_isSome lv n.id).mp hhas
        · simp [hk]
    · rw [if_neg hhas]
      by_cases hk : n.id = k
      · subst hk
        have hnone : mapGet n.id lv = none := by
          cases hg : mapGet n.id lv with
          | none => rfl
          | some w =>
            exact absurd ((mapHas_iff_isSome lv n.id).mpr (by simp [hg])) hhas
        rw [mapGet_append_single]
        rw [hnone]
        simp
      · rw [mapGet_append_single]
        rw [if_neg hk]
        simp only [Option.or_none]
        by_cases hs : (mapGet k lv).isSome
        · simp [hs]
        · rw [if_neg hs, if_neg hs]
          simp [hk]

/-- C3: properties of `applyHierarchicalLayout`'s root selection and BFS
leveling, for any graph handed to it.  (1) The root candidate list is
sorted ascending by id; (2) it holds exactly the nodes of in-degree 0;
(3) when it is empty but nodes exist, the fallback root list is the single
lexically smallest node; (4) for any root (the pipeline passes only the
first candidate, `[(root.id, 0)]` being the whole initial queue): the BFS
level map visits each node at most once (no duplicate keys), every entry
is the root at level 0 or was first reached along some edge `(u,v)` with
`level(v) = level(u) + 1`, and every node the traversal never reached is
assigned level 0 by the default pass. -/
theorem c3_roots_and_bfs_levels (ns : List FlowNode) (es : List FlowEdge) :
    List.Sorted (fun a b : FlowNode => a.id ≤ b.id) (Workflow.sortedRoots ns es) ∧
    (∀ n, n ∈ Workflow.sortedRoots ns es ↔
      n ∈ ns ∧ es.countP (fun e => e.target = n.id) = 0) ∧
    (Workflow.sortedRoots ns es = [] → ns ≠ [] →
      ∃ r, Workflow.rootsAfterFallback ns es = [r] ∧ r ∈ ns ∧
        ∀ n ∈ ns, r.id ≤ n.id) ∧
    (∀ root : FlowNode,
      ((Workflow.bfsRun es (es.length + 1) [(root.id, 0)] [] []).map Prod.fst).Nodup ∧
      (∀ x ∈ Workflow.bfsRun es (es.length + 1) [(root.id, 0)] [] [],
        (x.1 = root.id ∧ x.2 = 0) ∨
        ∃ u lu, (u, lu) ∈ Workflow.bfsRun es (es.length + 1) [(root.id, 0)] [] [] ∧
          (∃ e ∈ es, e.source = u ∧ e.target = x.1) ∧ x.2 = lu + 1) ∧
      (∀ n ∈ ns,
        mapGet n.id (Workflow.bfsRun es (es.length + 1) [(root.id, 0)] [] []) = none →
        mapGet n.id (Workflow.levelsWithDefaults ns es root) = some 0)) := by
  refine ⟨sortedRoots_sorted ns es, mem_sortedRoots ns es,
    rootsAfterFallback_smallest ns es, ?_⟩
  intro root
  have hinv := bfsRun_invariant es root.id (es.length + 1) [(root.id, 0)] [] []
    rfl (List.nodup_nil)
    (fun q hq => by
      have : q = (root.id, 0) := by simpa using hq
      subst this
      exact Or.inl ⟨rfl, rfl⟩)
    (fun x hx => absurd hx (List.not_mem_nil x))
  refine ⟨hinv.1, hinv.2, ?_⟩
  intro n hn hnone
  unfold Workflow.levelsWithDefaults
  rw [mapGet_defaultsFold]
  rw [hnone]
  simp only [Option.isSome_none, Bool.false_eq_true, if_false]
  rw [if_pos ?_]
  simp only [List.any_eq_true, decide_eq_true_eq]
  exact ⟨n, hn, rfl⟩

/-- Witness for C3: the fallback-root clauses on a concrete two-node cycle
(no in-degree-0 node), and the default-level clause on a node the BFS never
reaches. -/
theorem c3_roots_and_bfs_levels_witness :
    (∃ r, Workflow.rootsAfterFallback
        [⟨"A", "a", false, ⟨"", "", ""⟩, (0, 0)⟩,
         ⟨"B", "b", false, ⟨"", "", ""⟩, (0, 0)⟩]
        [⟨"e0", "A", "B", none⟩, ⟨"e1", "B", "A", none⟩] = [r] ∧
      r ∈ [⟨"A", "a", false, ⟨"", "", ""⟩, (0, 0)⟩,
           ⟨"B", "b", false, ⟨"", "", ""⟩, ((0 : Int), (0 : Int))⟩] ∧
      ∀ n ∈ [⟨"A", "a", false, ⟨"", "", ""⟩, (0, 0)⟩,
             ⟨"B", "b", false, ⟨"", "", ""⟩, ((0 : Int), (0 : Int))⟩],
        r.id ≤ FlowNode.id n) ∧
    mapGet "B" (Workflow.levelsWithDefaults
        [⟨"A", "a", false, ⟨"", "", ""⟩, (0, 0)⟩,
         ⟨"B", "b", false, ⟨"", "", ""⟩, (0, 0)⟩]
        [⟨"e0", "A", "A", none⟩]
        ⟨"A", "a", false, ⟨"", "", ""⟩, (0, 0)⟩) = some 0 := by
  constructor
  · exact (c3_roots_and_bfs_levels _ _).2.2.1 (by decide) (by decide)
  · exact ((c3_roots_and_bfs_levels
        [⟨"A", "a", false, ⟨"", "", ""⟩, (0, 0)⟩,
         ⟨"B", "b", false, ⟨"", "", ""⟩, (0, 0)⟩]
        [⟨"e0", "A", "A", none⟩]).2.2.2
      ⟨"A", "a", false, ⟨"", "", ""⟩, (0, 0)⟩).2.2
      ⟨"B", "b", false, ⟨"", "", ""⟩, (0, 0)⟩ (by decide) (by decide)

theorem mapGet_mem [DecidableEq κ] (m : List (κ × α)) (k : κ) (v : α)
    (h : mapGet k m = some v) : (k, v) ∈ m := by
  induction m with
  | nil => simp [mapGet] at h
  | cons p t ih =>
    rw [mapGet] at h
    by_cases hp : p.1 = k
    · rw [if_pos hp] at h
      obtain ⟨p1, p2⟩ := p
      simp only at hp
      simp only [Option.some.injEq] at h
      subst hp
      subst h
      exact List.mem_cons_self _ _
    · rw [if_neg hp] at h
      exact List.mem_cons_of_mem _ (ih h)

theorem mapGet_mapValues [DecidableEq κ] (m : List (κ × α)) (f : α → β) (k : κ) :
    mapGet k (m.map (fun g => (g.1, f g.2))) = (mapGet k m).map f := by
  induction m with
  | nil => simp [mapGet]
  | cons p t ih =>
    by_cases hp : p.1 = k
    · simp [mapGet, hp]
    · simp [mapGet, hp, ih]

theorem mapGet_groupUpdate (gs : List (Nat × List String)) (l : Nat) (id : String)
    (k : Nat) :
    mapGet k (gs.map (fun g => if g.1 = l then (g.1, g.2 ++ [id]) else g)) =
      if k = l then (mapGet k gs).map (· ++ [id]) else mapGet k gs := by
  induction gs with
  | nil => simp [mapGet]
  | cons g t ih =>
    by_cases hg : g.1 = l
    · by_cases hk : k = l
      · have : g.1 = k := by rw [hg, hk]
        simp [mapGet, hg, hk, this, ih]
      · have hg1k : ¬(g.1 = k) := by rw [hg]; exact fun hc => hk hc.symm
        have hlk : ¬(l = k) := fun hc => hk hc.symm
        simp [mapGet, hg, hk, hg1k, hlk, ih]
    · by_cases hgk : g.1 = k
      · have : ¬(k = l) := by rw [← hgk]; exact hg
        simp [mapGet, hg, hgk, this]
      · simp [mapGet, hg, hgk, ih]

/-- After one `levels.forEach` step the group at the entry's level contains
the entry's id. -/
theorem groupFold_step_mem (gs : List (Nat × List String)) (p : String × Nat) :
    ∃ g, mapGet p.2 (if mapHas gs p.2 then
        gs.map (fun g => if g.1 = p.2 then (g.1, g.2 ++ [p.1]) else g)
      else gs ++ [(p.2, [p.1])]) = some g ∧ p.1 ∈ g := by
  by_cases hhas : mapHas gs p.2
  · rw [if_pos hhas, mapGet_groupUpdate, if_pos rfl]
    have := (mapHas_iff_isSome gs p.2).mp hhas
    rcases Option.isSome_iff_exists.mp this with ⟨g, hg⟩
    exact ⟨g ++ [p.1], by simp [hg], by simp⟩
  · rw [if_neg hhas, mapGet_append_single]
    have hnone : mapGet p.2 gs = none := by
      cases hg : mapGet p.2 gs with
      | none => rfl
      | some g => exact absurd ((mapHas_iff_isSome gs p.2).mpr (by simp [hg])) hhas
    rw [hnone]
    simp

/-- Group membership is preserved by later `levels.forEach` steps. -/
theorem groupFold_mono (t : List (String × Nat)) :
    ∀ (gs : List (Nat × List String)) (k : Nat) (g : List String) (x : String),
      mapGet k gs = some g → x ∈ g →
      ∃ g', mapGet k (t.foldl
          (fun gs p =>
            if mapHas gs p.2 then
              gs.map (fun g => if g.1 = p.2 then (g.1, g.2 ++ [p.1]) else g)
            else gs ++ [(p.2, [p.1])]) gs) = some g' ∧ x ∈ g' := by
  induction t with
  | nil => intro gs k g x h1 h2; exact ⟨g, h1, h2⟩
  | cons p t ih =>
    intro gs k g x h1 h2
    rw [List.foldl_cons]
    by_cases hhas : mapHas gs p.2
    · rw [if_pos hhas]
      by_cases hk : k = p.2
      · subst hk
        refine ih _ p.2 (g ++ [p.1]) x ?_ (by simp [h2])
        rw [mapGet_groupUpdate, if_pos rfl, h1]
        rfl
      · refine ih _ k g x ?_ h2
        rw [mapGet_groupUpdate, if_neg hk]
        exact h1
    · rw [if_neg hhas]
      refine ih _ k g x ?_ h2
      rw [mapGet_append_single, h1]
      rfl

/-- Every level entry's id ends up in the group of its level. -/
theorem groupFold_mem (levels : List (String × Nat)) :
    ∀ (gs : List (Nat × List String)) (p : String × Nat), p ∈ levels →
      ∃ g, mapGet p.2 (levels.foldl
          (fun gs p =>
            if mapHas gs p.2 then
              gs.map (fun g => if g.1 = p.2 then (g.1, g.2 ++ [p.1]) else g)
            else gs ++ [(p.2, [p.1])]) gs) = some g ∧ p.1 ∈ g := by
  induction levels with
  | nil => intro gs p hp; exact absurd hp (List.not_mem_nil p)
  | cons q t ih =>
    intro gs p hp
    rw [List.foldl_cons]
    rcases List.mem_cons.mp hp with rfl | hp'
    · obtain ⟨g, hg, hmem⟩ := groupFold_step_mem gs p
      exact groupFold_mono t _ p.2 g p.1 hg hmem
    · exact ih _ p hp'

/-- Every node of the layout input has a level entry after the default
pass. -/
theorem levelsWithDefaults_isSome (ns : List FlowNode) (es : List FlowEdge)
    (root : FlowNode) (n : FlowNode) (hn : n ∈ ns) :
    ∃ lvl, mapGet n.id (Workflow.levelsWithDefaults ns es root) = some lvl := by
  unfold Workflow.levelsWithDefaults
  rw [mapGet_defaultsFold]
  cases hb : mapGet n.id (Workflow.bfsRun es (es.length + 1) [(root.id, 0)] [] []) with
  | some lvl => exact ⟨lvl, by simp [hb]⟩
  | none =>
    refine ⟨0, ?_⟩
    simp only [Option.isSome_none, Bool.false_eq_true, if_false]
    rw [if_pos ?_]
    simp only [List.any_eq_true, decide_eq_true_eq]
    exact ⟨n, hn, rfl⟩

/-- C6: for every successful layout run — the root list nonempty, `levels`
and `groups` built from its head — the node ids within each level group
are sorted lexically ascending, and every input node is positioned at
`x = centerX - ((k-1)*s)/2 + index*s` (with `centerX = 600`, `s = 300`,
`k` the size of its sorted level group and `index` its index therein, the
source's `indexOf`) and `y = 80 + level * 200`, strictly increasing with
the level. -/
theorem c6_level_sorting_and_coordinates (ns : List FlowNode) (es : List FlowEdge)
    (out : List FlowNode)
    (h : Workflow.applyHierarchicalLayout ns es = some out) :
    ∃ root rest, Workflow.rootsAfterFallback ns es = root :: rest ∧
      out = ns.map (Workflow.positionNode
        (Workflow.levelsWithDefaults ns es root)
        (Workflow.levelGroups (Workflow.levelsWithDefaults ns es root))) ∧
      (∀ g ∈ Workflow.levelGroups (Workflow.levelsWithDefaults ns es root),
        List.Sorted (fun a b : String => a ≤ b) g.2) ∧
      (∀ n ∈ ns, ∃ (lvl : Nat) (grp : List String) (idx : Nat),
        mapGet n.id (Workflow.levelsWithDefaults ns es root) = some lvl ∧
        mapGet lvl (Workflow.levelGroups (Workflow.levelsWithDefaults ns es root)) =
          some grp ∧
        grp.findIdx? (fun x => x = n.id) = some idx ∧
        (Workflow.positionNode
            (Workflow.levelsWithDefaults ns es root)
            (Workflow.levelGroups (Workflow.levelsWithDefaults ns es root))
            n).position =
          (600 - (((grp.length : Int) - 1) * 300) / 2 + (idx : Int) * 300,
           80 + (lvl : Int) * 200)) ∧
      (∀ (n₁ n₂ : FlowNode) (l₁ l₂ : Nat),
        mapGet n₁.id (Workflow.levelsWithDefaults ns es root) = some l₁ →
        mapGet n₂.id (Workflow.levelsWithDefaults ns es root) = some l₂ →
        l₁ < l₂ →
        (Workflow.positionNode
            (Workflow.levelsWithDefaults ns es root)
            (Workflow.levelGroups (Workflow.levelsWithDefaults ns es root))
            n₁).position.2 <
        (Workflow.positionNode
            (Workflow.levelsWithDefaults ns es root)
            (Workflow.levelGroups (Workflow.levelsWithDefaults ns es root))
            n₂).position.2) := by
  rcases hroot : Workflow.rootsAfterFallback ns es with _ | ⟨root, rest⟩
  · exfalso
    rw [Workflow.applyHierarchicalLayout, hroot] at h
    exact Option.noConfusion h
  · rw [Workflow.applyHierarchicalLayout, hroot] at h
    dsimp only at h
    refine ⟨root, rest, rfl, (Option.some.inj h).symm, ?_, ?_, ?_⟩
    · intro g hg
      unfold Workflow.levelGroups at hg
      rcases List.mem_map.mp hg with ⟨g0, _, rfl⟩
      exact List.sorted_insertionSort _ _
    · intro n hn
      obtain ⟨lvl, hlvl⟩ := levelsWithDefaults_isSome ns es root n hn
      have hmemlv : (n.id, lvl) ∈ Workflow.levelsWithDefaults ns es root :=
        mapGet_mem _ _ _ hlvl
      obtain ⟨g0, hg0, hmem0⟩ :=
        groupFold_mem (Workflow.levelsWithDefaults ns es root) [] (n.id, lvl) hmemlv
      have hgrp : mapGet lvl
          (Workflow.levelGroups (Workflow.levelsWithDefaults ns es root)) =
          some (List.insertionSort (fun a b : String => a ≤ b) g0) := by
        unfold Workflow.levelGroups
        rw [mapGet_mapValues]
        rw [hg0]
        rfl
      have hmemg : n.id ∈ List.insertionSort (fun a b : String => a ≤ b) g0 := by
        rw [List.mem_insertionSort]
        exact hmem0
      have hidx : ((List.insertionSort (fun a b : String => a ≤ b) g0).findIdx?
          (fun x => x = n.id)).isSome := by
        rw [List.findIdx?_isSome]
        simp only [List.any_eq_true, decide_eq_true_eq]
        exact ⟨n.id, hmemg, rfl⟩
      rcases Option.isSome_iff_exists.mp hidx with ⟨idx, hidxeq⟩
      refine ⟨lvl, List.insertionSort (fun a b : String => a ≤ b) g0, idx,
        hlvl, hgrp, hidxeq, ?_⟩
      unfold Workflow.positionNode
      simp only [hlvl, Option.getD_some, hgrp, hidxeq]
    · intro n₁ n₂ l₁ l₂ h₁ h₂ hlt
      unfold Workflow.positionNode
      simp only [h₁, h₂, Option.getD_some]
      omega

/-- Witness for C6 on the spec's Scenario A graph. -/
theorem c6_level_sorting_and_coordinates_witness :
    ∃ root rest, Workflow.rootsAfterFallback
        (Workflow.flowNodes (Workflow.parseState
          "flowchart\nA[Start] --> B[Process]\nB --> C{{Decide?}}".data))
        (Workflow.flowEdges (Workflow.finalEdges (Workflow.parseState
          "flowchart\nA[Start] --> B[Process]\nB --> C{{Decide?}}".data))) =
        root :: rest ∧
      ((Workflow.parseMermaidToFlow
          "flowchart\nA[Start] --> B[Process]\nB --> C{{Decide?}}").getD ([], [])).1 =
        (Workflow.flowNodes (Workflow.parseState
          "flowchart\nA[Start] --> B[Process]\nB --> C{{Decide?}}".data)).map
          (Workflow.positionNode
            (Workflow.levelsWithDefaults
              (Workflow.flowNodes (Workflow.parseState
                "flowchart\nA[Start] --> B[Process]\nB --> C{{Decide?}}".data))
              (Workflow.flowEdges (Workflow.finalEdges (Workflow.parseState
                "flowchart\nA[Start] --> B[Process]\nB --> C{{Decide?}}".data))) root)
            (Workflow.levelGroups (Workflow.levelsWithDefaults
              (Workflow.flowNodes (Workflow.parseState
                "flowchart\nA[Start] --> B[Process]\nB --> C{{Decide?}}".data))
              (Workflow.flowEdges (Workflow.finalEdges (Workflow.parseState
                "flowchart\nA[Start] --> B[Process]\nB --> C{{Decide?}}".data))) root))) := by
  obtain ⟨root, rest, h1, h2, _⟩ := c6_level_sorting_and_coordinates
    (Workflow.flowNodes (Workflow.parseState
      "flowchart\nA[Start] --> B[Process]\nB --> C{{Decide?}}".data))
    (Workflow.flowEdges (Workflow.finalEdges (Workflow.parseState
      "flowchart\nA[Start] --> B[Process]\nB --> C{{Decide?}}".data)))
    (((Workflow.parseMermaidToFlow
      "flowchart\nA[Start] --> B[Process]\nB --> C{{Decide?}}").getD ([], [])).1)
    (by decide)
  exact ⟨root, rest, h1, h2⟩

/-! ### A relational account of the matcher, for the identifier-shape claim -/

/-- `Matches its s caps rem`: the item list `its` can consume a prefix of
`s` leaving `rem`, capturing `caps` (not necessarily the greedy way the
engine chooses — this is the full nondeterministic matching relation). -/
inductive Matches : List Item → List Char → List (List Char) → List Char → Prop where
  | nil (s : List Char) : Matches [] s [] s
  | lit (l : List Char) (rest : List Item) (r rem : List Char)
      (caps : List (List Char)) (hm : Matches rest r caps rem) :
      Matches (Item.lit l :: rest) (l ++ r) caps rem
  | one (p : Char → Bool) (rest : List Item) (c : Char) (t rem : List Char)
      (caps : List (List Char)) (hp : p c = true) (hm : Matches rest t caps rem) :
      Matches (Item.one p :: rest) (c :: t) caps rem
  | repCap (p : Char → Bool) (min1 : Bool) (rest : List Item)
      (c r rem : List Char) (caps : List (List Char))
      (hall : ∀ a ∈ c, p a = true) (hne : min1 = true → c ≠ [])
      (hm : Matches rest r caps rem) :
      Matches (Item.rep p min1 true :: rest) (c ++ r) (c :: caps) rem
  | repNoCap (p : Char → Bool) (min1 : Bool) (rest : List Item)
      (c r rem : List Char) (caps : List (List Char))
      (hall : ∀ a ∈ c, p a = true) (hne : min1 = true → c ≠ [])
      (hm : Matches rest r caps rem) :
      Matches (Item.rep p min1 false :: rest) (c ++ r) caps rem

theorem drop_takeWhile_length (p : Char → Bool) (s : List Char) :
    s.drop (s.takeWhile p).length = s.dropWhile p := by
  induction s with
  | nil => rfl
  | cons c t ih =>
    by_cases h : p c
    · simp [List.takeWhile_cons, List.dropWhile_cons, h, ih]
    · simp [List.takeWhile_cons, List.dropWhile_cons, h]

theorem head?_dropWhile (p : Char → Bool) (s : List Char) :
    ∀ u, (s.dropWhile p).head? = some u → p u = false := by
  induction s with
  | nil => intro u h; simp at h
  | cons c t ih =>
    intro u h
    by_cases hc : p c
    · rw [List.dropWhile_cons, if_pos hc] at h
      exact ih u h
    · rw [List.dropWhile_cons, if_neg hc] at h
      simp only [List.head?_cons, Option.some.injEq] at h
      subst h
      exact Bool.eq_false_iff.mpr hc

theorem take_all_of_le_takeWhile (p : Char → Bool) (s : List Char) :
    ∀ k, k ≤ (s.takeWhile p).length → ∀ a ∈ s.take k, p a = true := by
  induction s with
  | nil => intro k _ a ha; simp at ha
  | cons c t ih =>
    intro k hk a ha
    by_cases hc : p c
    · rw [List.takeWhile_cons, if_pos hc] at hk
      cases k with
      | zero => simp at ha
      | succ j =>
        rw [List.take_succ_cons] at ha
        rcases List.mem_cons.mp ha with rfl | ha'
        · exact hc
        · exact ih j (by simpa using hk) a ha'
    · rw [List.takeWhile_cons, if_neg hc] at hk
      simp only [List.length_nil, Nat.le_zero] at hk
      subst hk
      simp at ha

theorem takeWhile_append_all (p : Char → Bool) (c r : List Char)
    (hall : ∀ a ∈ c, p a = true) :
    (c ++ r).takeWhile p = c ++ r.takeWhile p := by
  induction c with
  | nil => rfl
  | cons a t ih =>
    rw [List.cons_append, List.takeWhile_cons,
      if_pos (hall a (List.mem_cons_self _ _))]
    rw [ih (fun x hx => hall x (List.mem_cons_of_mem _ hx))]
    rfl

theorem mem_ks_star (n k : Nat) : k ∈ (List.range (n + 1)).reverse ↔ k ≤ n := by
  simp [List.mem_range]
  omega

theorem mem_ks_plus (n k : Nat) :
    k ∈ (List.range n).reverse.map (· + 1) ↔ 1 ≤ k ∧ k ≤ n := by
  simp only [List.mem_map, List.mem_reverse, List.mem_range]
  constructor
  · rintro ⟨j, hj, rfl⟩; omega
  · rintro ⟨h1, h2⟩; exact ⟨k - 1, by omega, by omega⟩

theorem findSome?_isSome_of_mem {α β : Type} (l : List α) (f : α → Option β)
    (x : α) (hx : x ∈ l) (hs : (f x).isSome) : (l.findSome? f).isSome := by
  induction l with
  | nil => simp at hx
  | cons a t ih =>
    rw [List.findSome?_cons]
    cases hfa : f a with
    | some b => simp
    | none =>
      rcases List.mem_cons.mp hx with rfl | hx'
      · rw [hfa] at hs; simp at hs
      · exact ih hx'

theorem matchItems_sound (its : List Item) :
    ∀ s caps rem, matchItems its s = some (caps, rem) → Matches its s caps rem := by
  induction its with
  | nil =>
    intro s caps rem h
    simp only [matchItems, Option.some.injEq, Prod.mk.injEq] at h
    obtain ⟨h1, h2⟩ := h
    rw [← h1, ← h2]
    exact Matches.nil s
  | cons x rest ih =>
    intro s caps rem h
    cases x with
    | lit l =>
      simp only [matchItems] at h
      by_cases hp : l.isPrefixOf s
      · rw [if_pos hp] at h
        have hm := ih _ _ _ h
        have hseq : l ++ s.drop l.length = s := by
          have := List.isPrefixOf_iff_prefix.mp hp
          exact List.prefix_iff_eq_append.mp this
        have := Matches.lit l rest (s.drop l.length) rem caps hm
        rwa [hseq] at this
      · rw [if_neg hp] at h
        exact Option.noConfusion h
    | one p =>
      cases s with
      | nil =>
        simp only [matchItems] at h
        exact Option.noConfusion h
      | cons c t =>
        simp only [matchItems] at h
        by_cases hp : p c
        · rw [if_pos hp] at h
          exact Matches.one p rest c t rem caps hp (ih _ _ _ h)
        · rw [if_neg hp] at h
          exact Option.noConfusion h
    | rep p min1 cap =>
      simp only [matchItems] at h
      obtain ⟨k, hkmem, hfk⟩ := List.exists_of_findSome?_eq_some h
      rw [Option.map_eq_some'] at hfk
      obtain ⟨⟨caps0, rem0⟩, hmi, hg⟩ := hfk
      simp only [Prod.mk.injEq] at hg
      obtain ⟨hcaps, hrem⟩ := hg
      have hkn : k ≤ (s.takeWhile p).length ∧ (min1 = true → 1 ≤ k) := by
        cases min1 with
        | true =>
          rw [if_pos rfl] at hkmem
          have := (mem_ks_plus _ _).mp hkmem
          exact ⟨this.2, fun _ => this.1⟩
        | false =>
          rw [if_neg (by simp)] at hkmem
          exact ⟨(mem_ks_star _ _).mp hkmem, by simp⟩
      have hall : ∀ a ∈ s.take k, p a = true :=
        take_all_of_le_takeWhile p s k hkn.1
      have hne : min1 = true → s.take k ≠ [] := by
        intro hm1
        have h1 : 1 ≤ k := hkn.2 hm1
        have h2 : k ≤ s.length :=
          le_trans hkn.1 (List.Sublist.length_le (List.takeWhile_sublist p))
        intro hc
        have := congrArg List.length hc
        rw [List.length_take] at this
        simp only [List.length_nil] at this
        omega
      subst hrem
      cases cap with
      | true =>
        simp only [if_true] at hcaps
        have := Matches.repCap p min1 rest (s.take k) (s.drop k) rem0 caps0
          hall hne (ih _ _ _ hmi)
        rw [List.take_append_drop] at this
        exact hcaps ▸ this
      | false =>
        simp only [Bool.false_eq_true, if_false] at hcaps
        have := Matches.repNoCap p min1 rest (s.take k) (s.drop k) rem0 caps0
          hall hne (ih _ _ _ hmi)
        rw [List.take_append_drop] at this
        exact hcaps ▸ this

theorem matchItems_complete {its : List Item} {s rem : List Char}
    {caps : List (List Char)} (h : Matches its s caps rem) :
    (matchItems its s).isSome := by
  induction h with
  | nil s => simp [matchItems]
  | lit l rest r rem caps hm ih =>
    simp only [matchItems]
    rw [if_pos (List.isPrefixOf_iff_prefix.mpr (List.prefix_append l r))]
    rwa [List.drop_left]
  | one p rest c t rem caps hp hm ih =>
    simp only [matchItems]
    rwa [if_pos hp]
  | repCap p min1 rest c r rem caps hall hne hm ih =>
    simp only [matchItems]
    apply findSome?_isSome_of_mem _ _ c.length
    · have hlen : c.length ≤ ((c ++ r).takeWhile p).length := by
        rw [takeWhile_append_all p c r hall]
        simp
      cases min1 with
      | true =>
        rw [if_pos rfl, mem_ks_plus]
        have := hne rfl
        have : 0 < c.length := List.length_pos.mpr this
        omega
      | false =>
        rw [if_neg (by simp), mem_ks_star]
        omega
    · rw [List.drop_left]
      rw [Option.isSome_map']
      exact ih
  | repNoCap p min1 rest c r rem caps hall hne hm ih =>
    simp only [matchItems]
    apply findSome?_isSome_of_mem _ _ c.length
    · have hlen : c.length ≤ ((c ++ r).takeWhile p).length := by
        rw [takeWhile_append_all p c r hall]
        simp
      cases min1 with
      | true =>
        rw [if_pos rfl, mem_ks_plus]
        have := hne rfl
        have : 0 < c.length := List.length_pos.mpr this
        omega
      | false =>
        rw [if_neg (by simp), mem_ks_star]
        omega
    · rw [List.drop_left]
      rw [Option.isSome_map']
      exact ih

/-- `String.prototype.match` finds the leftmost match: it succeeds on some
split of the input and the matcher fails anchored at every earlier
position. -/
theorem findMatch_spec (its : List Item) :
    ∀ s caps rem, findMatch its s = some (caps, rem) →
      ∃ pre mid, s = pre ++ mid ∧ matchItems its mid = some (caps, rem) ∧
        ∀ pre' mid', s = pre' ++ mid' → mid.length < mid'.length →
          matchItems its mid' = none := by
  intro s
  induction s with
  | nil =>
    intro caps rem h
    refine ⟨[], [], rfl, h, ?_⟩
    intro pre' mid' heq hlen
    have := congrArg List.length heq
    simp only [List.length_nil, List.length_append] at this
    omega
  | cons c t ih =>
    intro caps rem h
    rw [findMatch] at h
    cases hm : matchItems its (c :: t) with
    | some r =>
      rw [hm] at h
      simp only [Option.some.injEq] at h
      refine ⟨[], c :: t, rfl, by rw [hm, h], ?_⟩
      intro pre' mid' heq hlen
      have := congrArg List.length heq
      simp only [List.length_cons, List.length_append] at this
      simp only [List.length_cons] at hlen
      omega
    | none =>
      rw [hm] at h
      obtain ⟨pre, mid, heq, hmi, hmax⟩ := ih caps rem h
      refine ⟨c :: pre, mid, by rw [heq]; rfl, hmi, ?_⟩
      intro pre' mid' heq' hlen
      cases pre' with
      | nil =>
        simp only [List.nil_append] at heq'
        rw [← heq']
        exact hm
      | cons a pre'' =>
        simp only [List.cons_append, List.cons.injEq] at heq'
        exact hmax pre'' mid' heq'.2 hlen

/-- A `+`/`*` atom absorbs one more matching character on the left. -/
theorem matches_rep_extend {p : Char → Bool} {min1 cap : Bool} {rest : List Item}
    {s rem : List Char} {caps : List (List Char)} (a : Char) (ha : p a = true)
    (h : Matches (Item.rep p min1 cap :: rest) s caps rem) :
    ∃ caps', Matches (Item.rep p min1 cap :: rest) (a :: s) caps' rem := by
  cases h with
  | repCap _ _ _ c r rem caps hall hne hm =>
    refine ⟨(a :: c) :: caps, ?_⟩
    have := Matches.repCap p min1 rest (a :: c) r rem caps
      (fun x hx => by
        rcases List.mem_cons.mp hx with rfl | hx'
        · exact ha
        · exact hall x hx')
      (fun _ => by simp) hm
    simpa using this
  | repNoCap _ _ _ c r rem caps hall hne hm =>
    refine ⟨caps, ?_⟩
    have := Matches.repNoCap p min1 rest (a :: c) r rem caps
      (fun x hx => by
        rcases List.mem_cons.mp hx with rfl | hx'
        · exact ha
        · exact hall x hx')
      (fun _ => by simp) hm
    simpa using this

/-- When the last atom of a pattern is a greedy `+`, the engine's remainder
starts (if at all) with a character outside the class: the final capture is
taken maximally. -/
theorem matchItems_lastRep (p : Char → Bool) (cap : Bool) :
    ∀ (its : List Item) (s rem : List Char) (caps : List (List Char)),
      matchItems (its ++ [Item.rep p true cap]) s = some (caps, rem) →
      ∀ u, rem.head? = some u → p u = false := by
  intro its
  induction its with
  | nil =>
    intro s rem caps h u hu
    simp only [List.nil_append, matchItems] at h
    cases hn : (s.takeWhile p).length with
    | zero =>
      rw [hn] at h
      simp only [List.range_zero, List.reverse_nil, List.map_nil, if_pos rfl,
        List.findSome?_nil] at h
      exact Option.noConfusion h
    | succ m =>
      rw [hn] at h
      simp only [if_true] at h
      rw [List.range_succ, List.reverse_append] at h
      simp only [List.reverse_singleton, List.singleton_append, List.map_cons,
        List.findSome?_cons] at h
      simp only [Option.map_some'] at h
      simp only [Option.some.injEq, Prod.mk.injEq] at h
      have hrem : rem = s.drop (m + 1) := h.2.symm
      rw [hrem, ← hn, drop_takeWhile_length] at hu
      exact head?_dropWhile p s u hu
  | cons x its' ih =>
    intro s rem caps h u hu
    cases x with
    | lit l =>
      simp only [List.cons_append, matchItems] at h
      by_cases hp : l.isPrefixOf s
      · rw [if_pos hp] at h
        exact ih _ _ _ h u hu
      · rw [if_neg hp] at h
        exact Option.noConfusion h
    | one q =>
      cases s with
      | nil =>
        simp only [List.cons_append, matchItems] at h
        exact Option.noConfusion h
      | cons c t =>
        simp only [List.cons_append, matchItems] at h
        by_cases hp : q c
        · rw [if_pos hp] at h
          exact ih _ _ _ h u hu
        · rw [if_neg hp] at h
          exact Option.noConfusion h
    | rep q m1 cp =>
      simp only [List.cons_append, matchItems] at h
      obtain ⟨k, _, hfk⟩ := List.exists_of_findSome?_eq_some h
      rw [Option.map_eq_some'] at hfk
      obtain ⟨⟨caps0, rem0⟩, hmi, hg⟩ := hfk
      simp only [Prod.mk.injEq] at hg
      rw [← hg.2] at hu
      exact ih _ _ _ hmi u hu

theorem upperAZ_toNat {a : Char} (h : isUpperAZ a = true) :
    65 ≤ a.toNat ∧ a.toNat ≤ 90 := by
  simp only [isUpperAZ, Bool.and_eq_true, decide_eq_true_eq] at h
  exact ⟨h.1, h.2⟩

theorem ws_not_upper {a : Char} (h : jsWs a = true) : isUpperAZ a = false := by
  cases hu : isUpperAZ a with
  | false => rfl
  | true =>
    exfalso
    obtain ⟨h1, h2⟩ := upperAZ_toNat hu
    simp only [jsWs, Bool.or_eq_true, Bool.and_eq_true, decide_eq_true_eq] at h
    omega

theorem openBr_not_upper {a : Char} (h : isOpenBr a = true) : isUpperAZ a = false := by
  simp only [isOpenBr, Bool.or_eq_true, decide_eq_true_eq] at h
  rcases h with rfl | rfl <;> decide

theorem closeBr_not_upper {a : Char} (h : isCloseBr a = true) : isUpperAZ a = false := by
  simp only [isCloseBr, Bool.or_eq_true, decide_eq_true_eq] at h
  rcases h with rfl | rfl <;> decide

/-- `run` occurs in `line` as a maximal run of uppercase ASCII letters:
nonempty, all `[A-Z]`, and not extendable on either side. -/
def maximalUpperRunIn (line run : List Char) : Prop :=
  ∃ pre post, line = pre ++ run ++ post ∧ run ≠ [] ∧
    (∀ a ∈ run, isUpperAZ a = true) ∧
    (∀ a, pre.getLast? = some a → isUpperAZ a = false) ∧
    (∀ a, post.head? = some a → isUpperAZ a = false)

theorem getLast?_append_nonupper {xs ys : List Char}
    (hx : ∀ a, xs.getLast? = some a → isUpperAZ a = false)
    (hy : ∀ a, ys.getLast? = some a → isUpperAZ a = false) :
    ∀ a, (xs ++ ys).getLast? = some a → isUpperAZ a = false := by
  intro a h
  rw [List.getLast?_append] at h
  cases hys : ys.getLast? with
  | some b =>
    rw [hys] at h
    simp only [Option.or_some, Option.some.injEq] at h
    exact h ▸ hy b hys
  | none =>
    rw [hys] at h
    simp only [Option.none_or] at h
    exact hx a h

theorem head?_append_nonupper {xs ys : List Char}
    (hx : ∀ a, xs.head? = some a → isUpperAZ a = false)
    (hy : ∀ a, ys.head? = some a → isUpperAZ a = false) :
    ∀ a, (xs ++ ys).head? = some a → isUpperAZ a = false := by
  intro a h
  rw [List.head?_append] at h
  cases hxs : xs.head? with
  | some b =>
    rw [hxs] at h
    simp only [Option.or_some, Option.some.injEq] at h
    exact h ▸ hx b hxs
  | none =>
    rw [hxs] at h
    simp only [Option.none_or] at h
    exact hy a h

theorem head?_all_nonupper {xs : List Char} (p : Char → Bool)
    (hall : ∀ a ∈ xs, p a = true) (himp : ∀ a, p a = true → isUpperAZ a = false) :
    ∀ a, xs.head? = some a → isUpperAZ a = false := by
  intro a h
  cases xs with
  | nil => simp at h
  | cons c t =>
    simp only [List.head?_cons, Option.some.injEq] at h
    exact h ▸ himp c (hall c (List.mem_cons_self _ _))

theorem getLast?_all_nonupper {xs : List Char} (p : Char → Bool)
    (hall : ∀ a ∈ xs, p a = true) (himp : ∀ a, p a = true → isUpperAZ a = false) :
    ∀ a, xs.getLast? = some a → isUpperAZ a = false := by
  intro a h
  exact himp a (hall a (List.mem_of_getLast?_eq_some h))

theorem matches_edgePat4_inv {s rem : List Char} {caps : List (List Char)}
    (h : Matches edgePat4 s caps rem) :
    ∃ a w1 w2 b, s = a ++ w1 ++ ['-', '-', '>'] ++ w2 ++ b ++ rem ∧
      caps = [a, b] ∧ a ≠ [] ∧ b ≠ [] ∧
      (∀ x ∈ a, isUpperAZ x = true) ∧ (∀ x ∈ b, isUpperAZ x = true) ∧
      (∀ x ∈ w1, jsWs x = true) ∧ (∀ x ∈ w2, jsWs x = true) := by
  unfold edgePat4 at h
  cases h with
  | repCap _ _ _ a s1 rem1 caps1 hallA hneA h1 =>
  cases h1 with
  | repNoCap _ _ _ w1 s2 rem2 caps2 hallW1 _ h2 =>
  cases h2 with
  | lit _ _ s3 rem3 caps3 h3 =>
  cases h3 with
  | repNoCap _ _ _ w2 s4 rem4 caps4 hallW2 _ h4 =>
  cases h4 with
  | repCap _ _ _ b s5 rem5 caps5 hallB hneB h5 =>
  cases h5 with
  | nil =>
    exact ⟨a, w1, w2, b, by simp, rfl, hneA rfl, hneB rfl, hallA, hallB,
      hallW1, hallW2⟩

theorem matches_edgePat3_inv {s rem : List Char} {caps : List (List Char)}
    (h : Matches edgePat3 s caps rem) :
    ∃ a w1 w2 b br, s = a ++ w1 ++ ['-', '-', '>'] ++ w2 ++ b ++ (br :: rem) ∧
      caps = [a, b] ∧ a ≠ [] ∧ b ≠ [] ∧ w1 ≠ [] ∧ w2 ≠ [] ∧
      (∀ x ∈ a, isUpperAZ x = true) ∧ (∀ x ∈ b, isUpperAZ x = true) ∧
      (∀ x ∈ w1, jsWs x = true) ∧ (∀ x ∈ w2, jsWs x = true) ∧
      isOpenBr br = true := by
  unfold edgePat3 at h
  cases h with
  | repCap _ _ _ a s1 rem1 caps1 hallA hneA h1 =>
  cases h1 with
  | repNoCap _ _ _ w1 s2 rem2 caps2 hallW1 hneW1 h2 =>
  cases h2 with
  | lit _ _ s3 rem3 caps3 h3 =>
  cases h3 with
  | repNoCap _ _ _ w2 s4 rem4 caps4 hallW2 hneW2 h4 =>
  cases h4 with
  | repCap _ _ _ b s5 rem5 caps5 hallB hneB h5 =>
  cases h5 with
  | one _ _ br t5 rem6 caps6 hbr h6 =>
  cases h6 with
  | nil =>
    exact ⟨a, w1, w2, b, br, by simp, rfl, hneA rfl, hneB rfl, hneW1 rfl,
      hneW2 rfl, hallA, hallB, hallW1, hallW2, hbr⟩

theorem matches_edgePat2_inv {s rem : List Char} {caps : List (List Char)}
    (h : Matches edgePat2 s caps rem) :
    ∃ a obr nb cbr w1 w2 b obr2,
      s = a ++ obr ++ nb ++ cbr ++ w1 ++ ['-', '-', '>'] ++ w2 ++ b ++ obr2 ++ rem ∧
      caps = [a, b] ∧ a ≠ [] ∧ b ≠ [] ∧ obr ≠ [] ∧ obr2 ≠ [] ∧ cbr ≠ [] ∧
      (∀ x ∈ a, isUpperAZ x = true) ∧ (∀ x ∈ b, isUpperAZ x = true) ∧
      (∀ x ∈ obr, isOpenBr x = true) ∧ (∀ x ∈ obr2, isOpenBr x = true) ∧
      (∀ x ∈ cbr, isCloseBr x = true) ∧
      (∀ x ∈ w1, jsWs x = true) ∧ (∀ x ∈ w2, jsWs x = true) := by
  unfold edgePat2 at h
  cases h with
  | repCap _ _ _ a s1 rem1 caps1 hallA hneA h1 =>
  cases h1 with
  | repNoCap _ _ _ obr s2 rem2 caps2 hallO hneO h2 =>
  cases h2 with
  | repNoCap _ _ _ nb s3 rem3 caps3 hallN hneN h3 =>
  cases h3 with
  | repNoCap _ _ _ cbr s4 rem4 caps4 hallC hneC h4 =>
  cases h4 with
  | repNoCap _ _ _ w1 s5 rem5 caps5 hallW1 _ h5 =>
  cases h5 with
  | lit _ _ s6 rem6 caps6 h6 =>
  cases h6 with
  | repNoCap _ _ _ w2 s7 rem7 caps7 hallW2 _ h7 =>
  cases h7 with
  | repCap _ _ _ b s8 rem8 caps8 hallB hneB h8 =>
  cases h8 with
  | repNoCap _ _ _ obr2 s9 rem9 caps9 hallO2 hneO2 h9 =>
  cases h9 with
  | nil =>
    exact ⟨a, obr, nb, cbr, w1, w2, b, obr2, by simp, rfl, hneA rfl, hneB rfl,
      hneO rfl, hneO2 rfl, hneC rfl, hallA, hallB, hallO, hallO2, hallC,
      hallW1, hallW2⟩

theorem matches_edgePat1_inv {s rem : List Char} {caps : List (List Char)}
    (h : Matches edgePat1 s caps rem) :
    ∃ a obr nb cbr w1 w2 lbl w3 b obr2,
      s = a ++ obr ++ nb ++ cbr ++ w1 ++ ['-', '-', '>'] ++ w2 ++ ['|'] ++ lbl ++
        ['|'] ++ w3 ++ b ++ obr2 ++ rem ∧
      caps = [a, lbl, b] ∧ a ≠ [] ∧ b ≠ [] ∧ obr ≠ [] ∧ obr2 ≠ [] ∧ cbr ≠ [] ∧
      (∀ x ∈ a, isUpperAZ x = true) ∧ (∀ x ∈ b, isUpperAZ x = true) ∧
      (∀ x ∈ obr, isOpenBr x = true) ∧ (∀ x ∈ obr2, isOpenBr x = true) ∧
      (∀ x ∈ cbr, isCloseBr x = true) ∧
      (∀ x ∈ w1, jsWs x = true) ∧ (∀ x ∈ w2, jsWs x = true) ∧
      (∀ x ∈ w3, jsWs x = true) := by
  unfold edgePat1 at h
  cases h with
  | repCap _ _ _ a s1 rem1 caps1 hallA hneA h1 =>
  cases h1 with
  | repNoCap _ _ _ obr s2 rem2 caps2 hallO hneO h2 =>
  cases h2 with
  | repNoCap _ _ _ nb s3 rem3 caps3 hallN hneN h3 =>
  cases h3 with
  | repNoCap _ _ _ cbr s4 rem4 caps4 hallC hneC h4 =>
  cases h4 with
  | repNoCap _ _ _ w1 s5 rem5 caps5 hallW1 _ h5 =>
  cases h5 with
  | lit _ _ s6 rem6 caps6 h6 =>
  cases h6 with
  | repNoCap _ _ _ w2 s7 rem7 caps7 hallW2 _ h7 =>
  cases h7 with
  | lit _ _ s8 rem8 caps8 h8 =>
  cases h8 with
  | repCap _ _ _ lbl s9 rem9 caps9 hallL hneL h9 =>
  cases h9 with
  | lit _ _ s10 rem10 caps10 h10 =>
  cases h10 with
  | repNoCap _ _ _ w3 s11 rem11 caps11 hallW3 _ h11 =>
  cases h11 with
  | repCap _ _ _ b s12 rem12 caps12 hallB hneB h12 =>
  cases h12 with
  | repNoCap _ _ _ obr2 s13 rem13 caps13 hallO2 hneO2 h13 =>
  cases h13 with
  | nil =>
    exact ⟨a, obr, nb, cbr, w1, w2, lbl, w3, b, obr2, by simp, rfl, hneA rfl,
      hneB rfl, hneO rfl, hneO2 rfl, hneC rfl, hallA, hallB, hallO, hallO2,
      hallC, hallW1, hallW2, hallW3⟩

theorem matches_diamondPat_inv {s rem : List Char} {caps : List (List Char)}
    (h : Matches diamondPat s caps rem) :
    ∃ a lbl, s = a ++ ['\x7b', '\x7b'] ++ lbl ++ ['\x7d', '\x7d'] ++ rem ∧
      caps = [a, lbl] ∧ a ≠ [] ∧ (∀ x ∈ a, isUpperAZ x = true) := by
  unfold diamondPat at h
  cases h with
  | repCap _ _ _ a s1 rem1 caps1 hallA hneA h1 =>
  cases h1 with
  | lit _ _ s2 rem2 caps2 h2 =>
  cases h2 with
  | repCap _ _ _ lbl s3 rem3 caps3 hallL hneL h3 =>
  cases h3 with
  | lit _ _ s4 rem4 caps4 h4 =>
  cases h4 with
  | nil =>
    exact ⟨a, lbl, by simp, rfl, hneA rfl, hallA⟩

theorem matches_squarePat_inv {s rem : List Char} {caps : List (List Char)}
    (h : Matches squarePat s caps rem) :
    ∃ a lbl, s = a ++ ['['] ++ lbl ++ [']'] ++ rem ∧
      caps = [a, lbl] ∧ a ≠ [] ∧ (∀ x ∈ a, isUpperAZ x = true) := by
  unfold squarePat at h
  cases h with
  | repCap _ _ _ a s1 rem1 caps1 hallA hneA h1 =>
  cases h1 with
  | lit _ _ s2 rem2 caps2 h2 =>
  cases h2 with
  | repCap _ _ _ lbl s3 rem3 caps3 hallL hneL h3 =>
  cases h3 with
  | lit _ _ s4 rem4 caps4 h4 =>
  cases h4 with
  | nil =>
    exact ⟨a, lbl, by simp, rfl, hneA rfl, hallA⟩

/-- The leftmost match of a pattern opening with a capturing `[A-Z]+` can
never start just after an uppercase letter: the engine would have matched
one position earlier. -/
theorem findMatch_pre_not_upper (rest : List Item) {s rem : List Char}
    {caps : List (List Char)}
    (h : findMatch (Item.rep isUpperAZ true true :: rest) s = some (caps, rem)) :
    ∃ pre mid, s = pre ++ mid ∧
      matchItems (Item.rep isUpperAZ true true :: rest) mid = some (caps, rem) ∧
      (∀ a, pre.getLast? = some a → isUpperAZ a = false) := by
  obtain ⟨pre, mid, hs, hmid, hmax⟩ := findMatch_spec _ s caps rem h
  refine ⟨pre, mid, hs, hmid, ?_⟩
  intro a hlast
  cases hu : isUpperAZ a with
  | false => rfl
  | true =>
    exfalso
    have hdecomp : pre.dropLast ++ [a] = pre :=
      List.dropLast_append_getLast? a (Option.mem_def.mpr hlast)
    have hs' : s = pre.dropLast ++ (a :: mid) := by
      rw [hs, ← hdecomp]
      simp
    have hnone := hmax pre.dropLast (a :: mid) hs' (by simp)
    have hmatch := matchItems_sound _ _ _ _ hmid
    obtain ⟨caps', hext⟩ := matches_rep_extend a hu hmatch
    have := matchItems_complete hext
    rw [hnone] at this
    simp at this

theorem getLast?_append_right_nonupper {xs ys : List Char} (hne : ys ≠ [])
    (hy : ∀ a, ys.getLast? = some a → isUpperAZ a = false) :
    ∀ a, (xs ++ ys).getLast? = some a → isUpperAZ a = false := by
  intro a h
  rw [List.getLast?_append] at h
  rcases Option.isSome_iff_exists.mp (List.getLast?_isSome.mpr hne) with ⟨b, hb⟩
  rw [hb] at h
  simp only [Option.or_some, Option.or, Option.some.injEq] at h
  exact h ▸ hy b hb

/-- Both identifiers captured by edge pattern 4 are maximal uppercase runs
of the line. -/
theorem edgePat4_captures_maximal {s rem : List Char} {caps : List (List Char)}
    (h : findMatch edgePat4 s = some (caps, rem)) :
    maximalUpperRunIn s (caps.getD 0 []) ∧ maximalUpperRunIn s (caps.getD 1 []) := by
  obtain ⟨pre, mid, hs, hmid, hpre⟩ := findMatch_pre_not_upper edgePat4.tail h
  have hm := matchItems_sound _ _ _ _ hmid
  obtain ⟨a, w1, w2, b, hdec, hcaps, hna, hnb, hua, hub, hw1, hw2⟩ :=
    matches_edgePat4_inv hm
  have hrem : ∀ u, rem.head? = some u → isUpperAZ u = false := by
    intro u hu
    exact matchItems_lastRep isUpperAZ true
      [Item.rep isUpperAZ true true, Item.rep jsWs false false,
       Item.lit ['-', '-', '>'], Item.rep jsWs false false] mid rem caps hmid u hu
  subst hcaps
  constructor
  · refine ⟨pre, w1 ++ (['-', '-', '>'] ++ (w2 ++ (b ++ rem))), ?_, hna, hua, hpre, ?_⟩
    · rw [hs, hdec]
      simp
    · apply head?_append_nonupper
      · exact head?_all_nonupper jsWs hw1 (fun x hx => ws_not_upper hx)
      · intro x hx
        have hxe : '-' = x := by simpa using hx
        subst hxe
        decide
  · refine ⟨pre ++ (a ++ (w1 ++ (['-', '-', '>'] ++ w2))), rem, ?_, hnb, hub, ?_, hrem⟩
    · rw [hs, hdec]
      simp
    · apply getLast?_append_right_nonupper (by simp [hna])
      apply getLast?_append_right_nonupper (by simp)
      apply getLast?_append_right_nonupper (by simp)
      apply getLast?_append_nonupper
      · intro x hx
        have hxe : '>' = x := by simpa using hx
        subst hxe
        decide
      · exact getLast?_all_nonupper jsWs hw2 (fun x hx => ws_not_upper hx)

theorem head?_append_left_nonupper {xs ys : List Char} (hne : xs ≠ [])
    (hx : ∀ a, xs.head? = some a → isUpperAZ a = false) :
    ∀ a, (xs ++ ys).head? = some a → isUpperAZ a = false := by
  intro a h
  cases xs with
  | nil => exact absurd rfl hne
  | cons c t =>
    simp only [List.cons_append, List.head?_cons, Option.some.injEq] at h
    exact h ▸ hx c rfl

/-- Both identifiers captured by edge pattern 3 are maximal uppercase runs
of the line. -/
theorem edgePat3_captures_maximal {s rem : List Char} {caps : List (List Char)}
    (h : findMatch edgePat3 s = some (caps, rem)) :
    maximalUpperRunIn s (caps.getD 0 []) ∧ maximalUpperRunIn s (caps.getD 1 []) := by
  obtain ⟨pre, mid, hs, hmid, hpre⟩ := findMatch_pre_not_upper edgePat3.tail h
  have hm := matchItems_sound _ _ _ _ hmid
  obtain ⟨a, w1, w2, b, br, hdec, hcaps, hna, hnb, hnw1, hnw2, hua, hub, hw1, hw2, hbr⟩ :=
    matches_edgePat3_inv hm
  subst hcaps
  constructor
  · refine ⟨pre, w1 ++ (['-', '-', '>'] ++ (w2 ++ (b ++ (br :: rem)))), ?_, hna, hua,
      hpre, ?_⟩
    · rw [hs, hdec]
      simp
    · apply head?_append_left_nonupper hnw1
      exact head?_all_nonupper jsWs hw1 (fun x hx => ws_not_upper hx)
  · refine ⟨pre ++ (a ++ (w1 ++ (['-', '-', '>'] ++ w2))), br :: rem, ?_, hnb, hub,
      ?_, ?_⟩
    · rw [hs, hdec]
      simp
    · apply getLast?_append_right_nonupper (by simp [hna])
      apply getLast?_append_right_nonupper (by simp [hnw1])
      apply getLast?_append_right_nonupper (by simp)
      apply getLast?_append_right_nonupper hnw2
      exact getLast?_all_nonupper jsWs hw2 (fun x hx => ws_not_upper hx)
    · intro x hx
      simp only [List.head?_cons, Option.some.injEq] at hx
      exact hx ▸ openBr_not_upper hbr

/-- Both identifiers captured by edge pattern 2 are maximal uppercase runs
of the line. -/
theorem edgePat2_captures_maximal {s rem : List Char} {caps : List (List Char)}
    (h : findMatch edgePat2 s = some (caps, rem)) :
    maximalUpperRunIn s (caps.getD 0 []) ∧ maximalUpperRunIn s (caps.getD 1 []) := by
  obtain ⟨pre, mid, hs, hmid, hpre⟩ := findMatch_pre_not_upper edgePat2.tail h
  have hm := matchItems_sound _ _ _ _ hmid
  obtain ⟨a, obr, nb, cbr, w1, w2, b, obr2, hdec, hcaps, hna, hnb, hno, hno2, hnc,
    hua, hub, ho, ho2, hc, hw1, hw2⟩ := matches_edgePat2_inv hm
  subst hcaps
  constructor
  · refine ⟨pre, obr ++ (nb ++ (cbr ++ (w1 ++ (['-', '-', '>'] ++ (w2 ++ (b ++
      (obr2 ++ rem))))))), ?_, hna, hua, hpre, ?_⟩
    · rw [hs, hdec]
      simp
    · apply head?_append_left_nonupper hno
      exact head?_all_nonupper isOpenBr ho (fun x hx => openBr_not_upper hx)
  · refine ⟨pre ++ (a ++ (obr ++ (nb ++ (cbr ++ (w1 ++ (['-', '-', '>'] ++ w2)))))),
      obr2 ++ rem, ?_, hnb, hub, ?_, ?_⟩
    · rw [hs, hdec]
      simp
    · apply getLast?_append_right_nonupper (by simp [hna])
      apply getLast?_append_right_nonupper (by simp [hno])
      apply getLast?_append_right_nonupper (by simp [hnc])
      apply getLast?_append_right_nonupper (by simp [hnc])
      apply getLast?_append_right_nonupper (by simp)
      apply getLast?_append_right_nonupper (by simp)
      apply getLast?_append_nonupper
      · intro x hx
        have hxe : '>' = x := by simpa using hx
        subst hxe
        decide
      · exact getLast?_all_nonupper jsWs hw2 (fun x hx => ws_not_upper hx)
    · apply head?_append_left_nonupper hno2
      exact head?_all_nonupper isOpenBr ho2 (fun x hx => openBr_not_upper hx)

/-- The source and target identifiers captured by edge pattern 1 are
maximal uppercase runs of the line. -/
theorem edgePat1_captures_maximal {s rem : List Char} {caps : List (List Char)}
    (h : findMatch edgePat1 s = some (caps, rem)) :
    maximalUpperRunIn s (caps.getD 0 []) ∧ maximalUpperRunIn s (caps.getD 2 []) := by
  obtain ⟨pre, mid, hs, hmid, hpre⟩ := findMatch_pre_not_upper edgePat1.tail h
  have hm := matchItems_sound _ _ _ _ hmid
  obtain ⟨a, obr, nb, cbr, w1, w2, lbl, w3, b, obr2, hdec, hcaps, hna, hnb, hno,
    hno2, hnc, hua, hub, ho, ho2, hc, hw1, hw2, hw3⟩ := matches_edgePat1_inv hm
  subst hcaps
  constructor
  · refine ⟨pre, obr ++ (nb ++ (cbr ++ (w1 ++ (['-', '-', '>'] ++ (w2 ++ (['|'] ++
      (lbl ++ (['|'] ++ (w3 ++ (b ++ (obr2 ++ rem))))))))))), ?_, hna, hua, hpre, ?_⟩
    · rw [hs, hdec]
      simp
    · apply head?_append_left_nonupper hno
      exact head?_all_nonupper isOpenBr ho (fun x hx => openBr_not_upper hx)
  · refine ⟨pre ++ (a ++ (obr ++ (nb ++ (cbr ++ (w1 ++ (['-', '-', '>'] ++ (w2 ++
      (['|'] ++ (lbl ++ (['|'] ++ w3)))))))))), obr2 ++ rem, ?_, hnb, hub, ?_, ?_⟩
    · rw [hs, hdec]
      simp
    · apply getLast?_append_right_nonupper (by simp [hna])
      apply getLast?_append_right_nonupper (by simp [hno])
      apply getLast?_append_right_nonupper (by simp [hnc])
      apply getLast?_append_right_nonupper (by simp [hnc])
      apply getLast?_append_right_nonupper (by simp)
      apply getLast?_append_right_nonupper (by simp)
      apply getLast?_append_right_nonupper (by simp)
      apply getLast?_append_right_nonupper (by simp)
      apply getLast?_append_right_nonupper (by simp)
      apply getLast?_append_right_nonupper (by simp)
      apply getLast?_append_nonupper
      · intro x hx
        have hxe : '|' = x := by simpa using hx
        subst hxe
        decide
      · exact getLast?_all_nonupper jsWs hw3 (fun x hx => ws_not_upper hx)
    · apply head?_append_left_nonupper hno2
      exact head?_all_nonupper isOpenBr ho2 (fun x hx => openBr_not_upper hx)

/-- The identifier captured by a diamond-node match is a maximal uppercase
run; moreover the whole consumed region ends in `}`, so later matches of
the same `matchAll` pass stay maximal in the original line. -/
theorem diamondPat_capture_maximal {s rem : List Char} {caps : List (List Char)}
    (h : findMatch diamondPat s = some (caps, rem)) :
    maximalUpperRunIn s (caps.getD 0 []) ∧
    ∃ consumed, s = consumed ++ rem ∧
      (∀ a, consumed.getLast? = some a → isUpperAZ a = false) := by
  obtain ⟨pre, mid, hs, hmid, hpre⟩ := findMatch_pre_not_upper diamondPat.tail h
  have hm := matchItems_sound _ _ _ _ hmid
  obtain ⟨a, lbl, hdec, hcaps, hna, hua⟩ := matches_diamondPat_inv hm
  subst hcaps
  constructor
  · refine ⟨pre, ['\x7b', '\x7b'] ++ (lbl ++ (['\x7d', '\x7d'] ++ rem)), ?_, hna, hua,
      hpre, ?_⟩
    · rw [hs, hdec]
      simp
    · intro x hx
      have hxe : '\x7b' = x := by simpa using hx
      subst hxe
      decide
  · refine ⟨pre ++ (a ++ (['\x7b', '\x7b'] ++ (lbl ++ ['\x7d', '\x7d']))), ?_, ?_⟩
    · rw [hs, hdec]
      simp
    · apply getLast?_append_right_nonupper (by simp [hna])
      apply getLast?_append_right_nonupper (by simp)
      apply getLast?_append_right_nonupper (by simp)
      intro x hx
      have hxe : '\x7d' = x := by simpa using hx
      subst hxe
      decide

/-- The identifier captured by a square-node match is a maximal uppercase
run; the consumed region ends in `]`. -/
theorem squarePat_capture_maximal {s rem : List Char} {caps : List (List Char)}
    (h : findMatch squarePat s = some (caps, rem)) :
    maximalUpperRunIn s (caps.getD 0 []) ∧
    ∃ consumed, s = consumed ++ rem ∧
      (∀ a, consumed.getLast? = some a → isUpperAZ a = false) := by
  obtain ⟨pre, mid, hs, hmid, hpre⟩ := findMatch_pre_not_upper squarePat.tail h
  have hm := matchItems_sound _ _ _ _ hmid
  obtain ⟨a, lbl, hdec, hcaps, hna, hua⟩ := matches_squarePat_inv hm
  subst hcaps
  constructor
  · refine ⟨pre, ['['] ++ (lbl ++ ([']'] ++ rem)), ?_, hna, hua, hpre, ?_⟩
    · rw [hs, hdec]
      simp
    · intro x hx
      have hxe : '[' = x := by simpa using hx
      subst hxe
      decide
  · refine ⟨pre ++ (a ++ (['['] ++ (lbl ++ [']']))), ?_, ?_⟩
    · rw [hs, hdec]
      simp
    · apply getLast?_append_right_nonupper (by simp [hna])
      apply getLast?_append_right_nonupper (by simp)
      apply getLast?_append_right_nonupper (by simp)
      intro x hx
      have hxe : ']' = x := by simpa using hx
      subst hxe
      decide

/-- A maximal run of a suffix stays maximal after restoring a prefix whose
last character is not uppercase. -/
theorem maximalUpperRunIn_lift {consumed suffix run : List Char}
    (hc : ∀ a, consumed.getLast? = some a → isUpperAZ a = false)
    (h : maximalUpperRunIn suffix run) :
    maximalUpperRunIn (consumed ++ suffix) run := by
  obtain ⟨pre, post, heq, hne, hall, hpre, hpost⟩ := h
  refine ⟨consumed ++ pre, post, ?_, hne, hall,
    getLast?_append_nonupper hc hpre, hpost⟩
  rw [heq]
  simp

/-- All identifiers captured across a `matchAll` pass with the diamond
pattern are maximal uppercase runs of the line. -/
theorem matchAllFuel_diamond_maximal :
    ∀ (fuel : Nat) (s : List Char) (m : List (List Char)),
      m ∈ matchAllFuel diamondPat fuel s → maximalUpperRunIn s (m.getD 0 []) := by
  intro fuel
  induction fuel with
  | zero => intro s m hm; simp [matchAllFuel] at hm
  | succ f ih =>
    intro s m hm
    rw [matchAllFuel] at hm
    cases hf : findMatch diamondPat s with
    | none => rw [hf] at hm; simp at hm
    | some r =>
      rw [hf] at hm
      have hf2 : findMatch diamondPat s = some (r.1, r.2) := by rw [hf]
      obtain ⟨hmax, consumed, hcons, hlast⟩ := diamondPat_capture_maximal hf2
      rcases List.mem_cons.mp hm with rfl | hm'
      · exact hmax
      · by_cases hlen : r.2.length < s.length
        · rw [if_pos hlen] at hm'
          have := ih r.2 m hm'
          rw [hcons]
          exact maximalUpperRunIn_lift hlast this
        · rw [if_neg hlen] at hm'
          simp at hm'

/-- All identifiers captured across a `matchAll` pass with the square
pattern are maximal uppercase runs of the line. -/
theorem matchAllFuel_square_maximal :
    ∀ (fuel : Nat) (s : List Char) (m : List (List Char)),
      m ∈ matchAllFuel squarePat fuel s → maximalUpperRunIn s (m.getD 0 []) := by
  intro fuel
  induction fuel with
  | zero => intro s m hm; simp [matchAllFuel] at hm
  | succ f ih =>
    intro s m hm
    rw [matchAllFuel] at hm
    cases hf : findMatch squarePat s with
    | none => rw [hf] at hm; simp at hm
    | some r =>
      rw [hf] at hm
      have hf2 : findMatch squarePat s = some (r.1, r.2) := by rw [hf]
      obtain ⟨hmax, consumed, hcons, hlast⟩ := squarePat_capture_maximal hf2
      rcases List.mem_cons.mp hm with rfl | hm'
      · exact hmax
      · by_cases hlen : r.2.length < s.length
        · rw [if_pos hlen] at hm'
          have := ih r.2 m hm'
          rw [hcons]
          exact maximalUpperRunIn_lift hlast this
        · rw [if_neg hlen] at hm'
          simp at hm'

theorem dropWhile_eq_self_of_head {p : Char → Bool} {l : List Char}
    (h : ∀ a ∈ l, p a = false) : l.dropWhile p = l := by
  cases l with
  | nil => rfl
  | cons c t =>
    rw [List.dropWhile_cons, if_neg]
    rw [h c (List.mem_cons_self _ _)]
    simp

theorem upper_not_ws {a : Char} (h : isUpperAZ a = true) : jsWs a = false := by
  cases hw : jsWs a with
  | false => rfl
  | true => exact absurd h (by rw [ws_not_upper hw]; simp)

theorem jsTrim_all_upper {run : List Char}
    (hall : ∀ a ∈ run, isUpperAZ a = true) : jsTrim run = run := by
  unfold jsTrim
  rw [dropWhile_eq_self_of_head (fun a ha => upper_not_ws (hall a ha))]
  rw [dropWhile_eq_self_of_head (fun a ha =>
    upper_not_ws (hall a (List.mem_reverse.mp ha)))]
  exact List.reverse_reverse run

theorem nodeOrder_from_declStream (code : List Char) :
    ∀ id ∈ (Workflow.parseState code).nodeOrder, ∃ d ∈ declStream code, d.id = id := by
  have hinv : NodeInv (Workflow.parseState code) (declStream code) := by
    have h0 : NodeInv ⟨[], [], []⟩ [] := ⟨rfl, rfl, fun id => by simp [mapGet]⟩
    have := foldl_processLine_inv (Workflow.parseLines code) ⟨[], [], []⟩ [] h0
    simpa [Workflow.parseState, declStream] using this
  intro id hid
  rw [hinv.1, mem_dedupFirst] at hid
  rcases List.mem_map.mp hid.1 with ⟨d, hd, hdid⟩
  exact ⟨d, hd, hdid⟩

theorem declStream_id_maximal (code : List Char) :
    ∀ d ∈ declStream code, ∃ l ∈ Workflow.parseLines code,
      maximalUpperRunIn (jsTrim l) d.id.data := by
  intro d hd
  unfold declStream at hd
  rw [List.mem_flatMap] at hd
  obtain ⟨l, hl, hdl⟩ := hd
  refine ⟨l, hl, ?_⟩
  unfold lineDecls at hdl
  rcases List.mem_append.mp hdl with hdl | hdl
  · rcases List.mem_map.mp hdl with ⟨m, hm, rfl⟩
    exact matchAllFuel_diamond_maximal _ _ m hm
  · rcases List.mem_map.mp hdl with ⟨m, hm, rfl⟩
    exact matchAllFuel_square_maximal _ _ m hm

theorem edgeList_ids_maximal (code : List Char) :
    ∀ e ∈ (Workflow.parseState code).edgeList, ∃ l ∈ Workflow.parseLines code,
      maximalUpperRunIn (jsTrim l) e.source.data ∧
      maximalUpperRunIn (jsTrim l) e.target.data := by
  intro e he
  have hfm : (Workflow.parseState code).edgeList =
      (Workflow.parseLines code).filterMap (fun l => Workflow.extractEdge (jsTrim l)) :=
    foldl_processLine_edgeList (Workflow.parseLines code) ⟨[], [], []⟩
  rw [hfm] at he
  rcases List.mem_filterMap.mp he with ⟨l, hl, hex⟩
  refine ⟨l, hl, ?_⟩
  unfold Workflow.extractEdge at hex
  cases hf1 : findMatch edgePat1 (jsTrim l) with
  | some r =>
    rw [hf1] at hex
    simp only [Option.some.injEq] at hex
    obtain ⟨hsrc, htgt⟩ := edgePat1_captures_maximal hf1
    rw [← hex]
    constructor
    · have hall2 : ∀ a ∈ r.1.getD 0 [], isUpperAZ a = true := by
        obtain ⟨pre, post, _, _, hall, _, _⟩ := hsrc
        exact hall
      show maximalUpperRunIn (jsTrim l) (jsTrim (r.1.getD 0 []))
      rw [jsTrim_all_upper hall2]
      exact hsrc
    · have hall2 : ∀ a ∈ r.1.getD 2 [], isUpperAZ a = true := by
        obtain ⟨pre, post, _, _, hall, _, _⟩ := htgt
        exact hall
      show maximalUpperRunIn (jsTrim l) (jsTrim (r.1.getD 2 []))
      rw [jsTrim_all_upper hall2]
      exact htgt
  | none =>
  rw [hf1] at hex
  cases hf2 : findMatch edgePat2 (jsTrim l) with
  | some r =>
    rw [hf2] at hex
    simp only [Option.some.injEq] at hex
    obtain ⟨hsrc, htgt⟩ := edgePat2_captures_maximal hf2
    rw [← hex]
    constructor
    · have hall2 : ∀ a ∈ r.1.getD 0 [], isUpperAZ a = true := by
        obtain ⟨pre, post, _, _, hall, _, _⟩ := hsrc
        exact hall
      show maximalUpperRunIn (jsTrim l) (jsTrim (r.1.getD 0 []))
      rw [jsTrim_all_upper hall2]
      exact hsrc
    · have hall2 : ∀ a ∈ r.1.getD 1 [], isUpperAZ a = true := by
        obtain ⟨pre, post, _, _, hall, _, _⟩ := htgt
        exact hall
      show maximalUpperRunIn (jsTrim l) (jsTrim (r.1.getD 1 []))
      rw [jsTrim_all_upper hall2]
      exact htgt
  | none =>
  rw [hf2] at hex
  cases hf3 : findMatch edgePat3 (jsTrim l) with
  | some r =>
    rw [hf3] at hex
    simp only [Option.some.injEq] at hex
    obtain ⟨hsrc, htgt⟩ := edgePat3_captures_maximal hf3
    rw [← hex]
    constructor
    · have hall2 : ∀ a ∈ r.1.getD 0 [], isUpperAZ a = true := by
        obtain ⟨pre, post, _, _, hall, _, _⟩ := hsrc
        exact hall
      show maximalUpperRunIn (jsTrim l) (jsTrim (r.1.getD 0 []))
      rw [jsTrim_all_upper hall2]
      exact hsrc
    · have hall2 : ∀ a ∈ r.1.getD 1 [], isUpperAZ a = true := by
        obtain ⟨pre, post, _, _, hall, _, _⟩ := htgt
        exact hall
      show maximalUpperRunIn (jsTrim l) (jsTrim (r.1.getD 1 []))
      rw [jsTrim_all_upper hall2]
      exact htgt
  | none =>
  rw [hf3] at hex
  cases hf4 : findMatch edgePat4 (jsTrim l) with
  | some r =>
    rw [hf4] at hex
    simp only [Option.some.injEq] at hex
    obtain ⟨hsrc, htgt⟩ := edgePat4_captures_maximal hf4
    rw [← hex]
    constructor
    · have hall2 : ∀ a ∈ r.1.getD 0 [], isUpperAZ a = true := by
        obtain ⟨pre, post, _, _, hall, _, _⟩ := hsrc
        exact hall
      show maximalUpperRunIn (jsTrim l) (jsTrim (r.1.getD 0 []))
      rw [jsTrim_all_upper hall2]
      exact hsrc
    · have hall2 : ∀ a ∈ r.1.getD 1 [], isUpperAZ a = true := by
        obtain ⟨pre, post, _, _, hall, _, _⟩ := htgt
        exact hall
      show maximalUpperRunIn (jsTrim l) (jsTrim (r.1.getD 1 []))
      rw [jsTrim_all_upper hall2]
      exact htgt
  | none =>
    rw [hf4] at hex
    exact Option.noConfusion hex

/-- C10: every identifier the parser recognizes — node ids and edge
endpoints alike — is a maximal run of uppercase ASCII letters of the
(trimmed) line it came from; consequently declarations whose identifiers
contain lowercase letters or digits contribute nothing, e.g.
`start[Begin]` yields no node and `a1 --> b2` yields no edge. -/
theorem c10_identifiers_maximal_upper_runs :
    (∀ code : List Char, ∀ id ∈ (Workflow.parseState code).nodeOrder,
      ∃ l ∈ Workflow.parseLines code, maximalUpperRunIn (jsTrim l) id.data) ∧
    (∀ code : List Char, ∀ e ∈ (Workflow.parseState code).edgeList,
      ∃ l ∈ Workflow.parseLines code,
        maximalUpperRunIn (jsTrim l) e.source.data ∧
        maximalUpperRunIn (jsTrim l) e.target.data) ∧
    Workflow.parseState "start[Begin]".data = ⟨[], [], []⟩ ∧
    Workflow.parseState "a1 --> b2".data = ⟨[], [], []⟩ := by
  refine ⟨?_, edgeList_ids_maximal, by decide, by decide⟩
  intro code id hid
  obtain ⟨d, hd, rfl⟩ := nodeOrder_from_declStream code id hid
  exact declStream_id_maximal code d hd

/-- Witness for C10 at a concrete line: the node id `A` of `"A[x]"` and
the edge endpoints of `"A --> B"` are maximal uppercase runs of their
lines. -/
theorem c10_identifiers_maximal_upper_runs_witness :
    (∃ l ∈ Workflow.parseLines "A[x]".data,
      maximalUpperRunIn (jsTrim l) ("A" : String).data) ∧
    (∃ l ∈ Workflow.parseLines "A --> B".data,
      maximalUpperRunIn (jsTrim l) ("A" : String).data ∧
      maximalUpperRunIn (jsTrim l) ("B" : String).data) := by
  constructor
  · exact c10_identifiers_maximal_upper_runs.1 "A[x]".data "A" (by decide)
  · exact c10_identifiers_maximal_upper_runs.2.1 "A --> B".data
      ⟨"A", "B", none⟩ (by decide)
